import Mathlib

/-!
Verification development for the EduPage timetable parsing core
(`src/parsers.py` of the repository under study).

The Python source is shallowly embedded below.  Conventions:

* Python strings are Lean `String`s; all character-level operations
  (whitespace collapsing, lower-casing, substring search) are implemented
  over `List Char` so that every definition evaluates by kernel reduction.
  Python's `str.lower` is modelled for the character ranges that actually
  occur in the data (ASCII and the Cyrillic block used by the day names);
  Python's `\s` and `str.strip` are modelled by the six standard ASCII
  whitespace characters; `\d` is modelled by the ASCII decimal digits.
* A BeautifulSoup `Tag` for a table cell is modelled by the record `Tag`
  carrying exactly the data `parsers.py` reads from a cell: its `rowspan`
  and `colspan` attributes (absent, an integer-valued string, or a
  non-numeric string on which Python's `int` raises `ValueError`), the
  result of `get_text(" ")`, the list of `stripped_strings`, and the list
  of direct element children (each with its `class` list, optional
  `data-week` attribute and its own `stripped_strings`).
* Python's `int(...)` failure (`ValueError`) and the `FileNotFoundError`
  of `_load_html` are the only exceptions the module can raise; fallible
  functions therefore return `Except PyErr`.
* Python's `sorted`, a stable sort by key, is embedded as Mathlib's
  `List.insertionSort` with the non-strict key comparison, which is a
  stable sort and hence extensionally equal to `sorted`; it is used
  because it evaluates by kernel reduction.
* Python dicts that are only ever read through `get`/`[]`/`sorted(keys)`
  are embedded as association lists with replace-on-insert semantics.
-/

namespace Edu

/-! ## Text primitives (`_normalize_text` and friends) -/

/-- The whitespace characters recognised by Python's `\s` / `str.strip`
(restricted to the ASCII range, see the header). -/
def pyIsSpace (c : Char) : Bool :=
  c = ' ' || c = '\t' || c = '\n' || c = '\r' || c = '\x0b' || c = '\x0c'

/-- Split a character list into its maximal runs of non-whitespace
characters (the "words" of the text). -/
def wordsAux : List Char → List Char → List (List Char)
  | [], acc => if acc = [] then [] else [acc.reverse]
  | c :: cs, acc =>
      if pyIsSpace c then
        if acc = [] then wordsAux cs [] else acc.reverse :: wordsAux cs []
      else wordsAux cs (c :: acc)

/-- Join words with single spaces. -/
def joinSpace : List (List Char) → List Char
  | [] => []
  | [w] => w
  | w :: ws => w ++ ' ' :: joinSpace ws

/-- `_normalize_text`: `re.sub(r"\s+", " ", text or "").strip()` — every
whitespace run becomes one space and the ends are trimmed, which equals
joining the whitespace-separated words with single spaces. -/
def normalizeText (s : String) : String := ⟨joinSpace (wordsAux s.data [])⟩

/-- Python `str.lower` on the character ranges used by the data:
ASCII letters and the Cyrillic letters of the Mongolian day names. -/
def pyCharLower (c : Char) : Char :=
  if 'A' ≤ c ∧ c ≤ 'Z' then Char.ofNat (c.toNat + 32)
  else if 'А' ≤ c ∧ c ≤ 'Я' then Char.ofNat (c.toNat + 32)
  else if c = 'Ё' then 'ё'
  else if c = 'Ү' then 'ү'
  else if c = 'Ө' then 'ө'
  else c

/-- Python `str.lower`. -/
def pyLower (s : String) : String := ⟨s.data.map pyCharLower⟩

/-- Python `str.strip` (trim leading and trailing whitespace). -/
def pyStrip (s : String) : String :=
  ⟨((s.data.dropWhile pyIsSpace).reverse.dropWhile pyIsSpace).reverse⟩

/-- Python `pat in s` (contiguous substring test) on character lists. -/
def subChars : List Char → List Char → Bool
  | pat, [] => pat.isEmpty
  | pat, c :: cs => pat.isPrefixOf (c :: cs) || subChars pat cs

/-- Python `pat in s` on strings. -/
def pyContains (s pat : String) : Bool := subChars pat.data s.data

/-- Python `s.endswith(suf)`. -/
def pyEndsWith (s suf : String) : Bool := suf.data.isSuffixOf s.data

/-- Lexicographic code-point comparison of character lists (Python's
`<=` on strings). -/
def pyLeChars : List Char → List Char → Bool
  | [], _ => true
  | _ :: _, [] => false
  | a :: as, b :: bs => if a = b then pyLeChars as bs else decide (a < b)

/-- Python `s1 <= s2` (used by `sorted` on section names). -/
def pyStrLe (s1 s2 : String) : Bool := pyLeChars s1.data s2.data

/-- ASCII decimal digit (model of `\d`). -/
def isDigitCh (c : Char) : Bool := '0' ≤ c && c ≤ '9'

/-- `_is_period_label`: `bool(re.search(r"\d", text))`. -/
def isPeriodLabel (text : String) : Bool := text.data.any isDigitCh

/-- First maximal run of decimal digits of a character list, if any
(`re.search(r"\d+", s)`). -/
def firstDigitRunAux : List Char → Option (List Char)
  | [] => none
  | c :: cs => if isDigitCh c then some (c :: cs.takeWhile isDigitCh)
               else firstDigitRunAux cs

/-- `re.search(r"\d+", s)`, returning the matched text. -/
def firstDigitRun (s : String) : Option String :=
  (firstDigitRunAux s.data).map String.mk

/-- Decimal digits of a natural number, with explicit fuel so that the
definition is structurally recursive (the fuel `n + 1` always suffices
since a number has at most `n + 1` digits). -/
def natDigitsF : Nat → Nat → List Char
  | 0, _ => []
  | fuel + 1, n =>
      if n < 10 then [Char.ofNat (48 + n)]
      else natDigitsF fuel (n / 10) ++ [Char.ofNat (48 + n % 10)]

/-- Python `str(n)` for a natural number. -/
def pyNatStr (n : Nat) : String := ⟨natDigitsF (n + 1) n⟩

/-! ## Day canonicalisation (`DAY_ORDER`, `DAY_ALIASES`,
`_normalize_day_label`) -/

/-- `DAY_ORDER` from `parsers.py`. -/
def DAY_ORDER : List String :=
  ["Даваа", "Мягмар", "Лхагва", "Пүрэв", "Баасан", "Бямба", "Ням"]

/-- `DAY_ALIASES` from `parsers.py` (the duplicate `"monday"` key of the
source literal collapses to a single entry, as in a Python dict). -/
def DAY_ALIASES : List (String × String) :=
  [("даваа", "Даваа"), ("мон", "Даваа"), ("monday", "Даваа"),
   ("мягмар", "Мягмар"), ("tue", "Мягмар"), ("tuesday", "Мягмар"),
   ("лхагва", "Лхагва"), ("wed", "Лхагва"), ("wednesday", "Лхагва"),
   ("пүрэв", "Пүрэв"), ("thu", "Пүрэв"), ("thur", "Пүрэв"),
   ("thursday", "Пүрэв"),
   ("баасан", "Баасан"), ("fri", "Баасан"), ("friday", "Баасан"),
   ("бямба", "Бямба"), ("sat", "Бямба"), ("saturday", "Бямба"),
   ("ням", "Ням"), ("sun", "Ням"), ("sunday", "Ням")]

/-- `_normalize_day_label`: normalise and lower-case the label; empty
labels give `None`; otherwise look the cleaned label up in the alias
table, falling back to the stripped original. -/
def normalizeDayLabel (label : String) : Option String :=
  let cleaned := pyLower (normalizeText label)
  if cleaned = "" then none
  else some ((DAY_ALIASES.lookup cleaned).getD (pyStrip label))

/-! ## The cell model -/

/-- The value of a `rowspan`/`colspan` HTML attribute as seen by
`int(...)`: either a string that parses as an integer or a non-numeric
string (on which `int` raises `ValueError`). -/
inductive AttrVal where
  | num (n : Int)
  | junk
  deriving DecidableEq, Repr

/-- A direct element child of a cell, carrying the data
`_split_cell_by_week` reads from it: the `class` attribute list, the
optional `data-week` attribute, and its `stripped_strings`. -/
structure ChildElem where
  classes : List String
  dataWeek : Option String
  lines : List String
  deriving DecidableEq, Repr

/-- A table cell (BeautifulSoup `Tag`) as consumed by `parsers.py`:
span attributes, `get_text(" ")`, `stripped_strings`, and the direct
element children. -/
structure Tag where
  rowspanAttr : Option AttrVal := none
  colspanAttr : Option AttrVal := none
  text : String := ""
  lines : List String := []
  children : List ChildElem := []
  deriving DecidableEq, Repr

instance : Inhabited Tag := ⟨{}⟩

/-- The two exception classes of the module: `FileNotFoundError` from
`_load_html` and `ValueError` from `int(...)` on a span attribute. -/
inductive PyErr where
  | fileNotFound
  | valueError
  deriving DecidableEq, Repr

/-- `int(cell.get("rowspan", 1))`: absent attribute defaults to `1`,
a numeric string parses, a non-numeric string raises `ValueError`. -/
def parseSpan : Option AttrVal → Except PyErr Int
  | none => .ok 1
  | some (.num n) => .ok n
  | some .junk => .error .valueError

/-- `CellInfo` from `parsers.py`. -/
structure CellInfo where
  subject : String
  second_line : String
  third_line : String
  extra_lines : List String
  deriving DecidableEq, Repr

/-- `_parse_entry_lines`. -/
def parseEntryLines (lines : List String) : CellInfo :=
  { subject := lines.getD 0 ""
    second_line := lines.getD 1 ""
    third_line := lines.getD 2 ""
    extra_lines := lines.drop 3 }

/-! ## Grid expansion (`_expand_table`)

`span_map` is a Python dict `col → (cell, remaining)`; it is embedded as
an association list that is only accessed through `get` / item
assignment / `del`, so the embedding keeps at most one binding per key
(assignment removes the old binding and appends the new one). -/

/-- The pending-span map `span_map : Dict[int, Tuple[Tag, int]]`. -/
abbrev SpanMap : Type := List (Nat × Tag × Int)

/-- `span_map.get(col)`. -/
def lookupS (m : SpanMap) (c : Nat) : Option (Tag × Int) := List.lookup c m

/-- `del span_map[col]`. -/
def eraseS (m : SpanMap) (c : Nat) : SpanMap :=
  List.filter (fun e => e.1 ≠ c) m

/-- `span_map[col] = v`. -/
def insertS (m : SpanMap) (c : Nat) (v : Tag × Int) : SpanMap :=
  eraseS m c ++ [(c, v)]

/-- Number of bindings at a column `≥ c`; drives the termination fuel of
the span-resolving loop (each loop iteration moves the cursor past one
such column). -/
def keysGe (m : SpanMap) (c : Nat) : Nat :=
  (List.filter (fun e => c ≤ e.1) m).length

/-- One `while True: span_entry = span_map.get(col_idx); ...` loop from
`_expand_table`, with explicit fuel: starting at cursor `c`, place the
pending cell of each consecutive occupied column, decrementing its
remaining count (deleting it when the count reaches zero), until a free
column is reached.  Returns the cells placed, the updated map and the
final cursor.  `drain` below always supplies sufficient fuel, so the
fuel-exhausted branch is unreachable (`drain_eq_some`). -/
def drainStep (m : SpanMap) (c : Nat) (cell : Tag) (rem : Int) : SpanMap :=
  if rem - 1 = 0 then eraseS m c else insertS m c (cell, rem - 1)

def drainF : Nat → SpanMap → Nat → List Tag × SpanMap × Nat
  | 0, m, c => ([], m, c)
  | fuel + 1, m, c =>
      match lookupS m c with
      | none => ([], m, c)
      | some (cell, rem) =>
          let r := drainF fuel (drainStep m c cell rem) (c + 1)
          (cell :: r.1, r.2.1, r.2.2)

/-- The span-resolving loop of `_expand_table`. -/
def drain (m : SpanMap) (c : Nat) : List Tag × SpanMap × Nat :=
  drainF (keysGe m c + 1) m c

/-- The `for _ in range(colspan)` loop of `_expand_table`: append the
cell `n` times, registering the vertical span at each column if
`rowspan > 1`, advancing the cursor. -/
def placeCopies (cell : Tag) (rs : Int) :
    Nat → List Tag × SpanMap × Nat → List Tag × SpanMap × Nat
  | 0, st => st
  | n + 1, (row, m, c) =>
      placeCopies cell rs n
        (row ++ [cell],
         if 1 < rs then insertS m c (cell, rs - 1) else m,
         c + 1)

/-- The `for cell in tr.find_all(["td", "th"])` loop of `_expand_table`:
for each source cell, first resolve pending spans at the cursor, then
parse its spans (`int` may raise) and place its copies. -/
def placeCells :
    List Tag × SpanMap × Nat → List Tag → Except PyErr (List Tag × SpanMap × Nat)
  | st, [] => .ok st
  | (row, m, c), cell :: rest =>
      let d := drain m c
      match parseSpan cell.rowspanAttr, parseSpan cell.colspanAttr with
      | .ok rs, .ok cs =>
          placeCells (placeCopies cell rs cs.toNat (row ++ d.1, d.2.1, d.2.2)) rest
      | .error e, _ => .error e
      | _, .error e => .error e

/-- Processing of one `<tr>` in `_expand_table`: leading span
resolution, the source cells, then the trailing span resolution. -/
def processRow (m : SpanMap) (cells : List Tag) :
    Except PyErr (List Tag × SpanMap) :=
  let d0 := drain m 0
  match placeCells (d0.1, d0.2.1, d0.2.2) cells with
  | .error e => .error e
  | .ok (row, m1, c1) =>
      let d2 := drain m1 c1
      .ok (row ++ d2.1, d2.2.1)

/-- The row loop of `_expand_table`, threading `span_map`. -/
def expandFrom (m : SpanMap) : List (List Tag) → Except PyErr (List (List Tag) × SpanMap)
  | [] => .ok ([], m)
  | r :: rs =>
      match processRow m r with
      | .error e => .error e
      | .ok (row, m1) =>
          match expandFrom m1 rs with
          | .error e => .error e
          | .ok (g, mf) => .ok (row :: g, mf)

/-- `_expand_table`.  The input is the table's rows (`find_all("tr")`),
each a list of its source cells (`find_all(["td", "th"])`). -/
def expandTable (t : List (List Tag)) : Except PyErr (List (List Tag)) :=
  match expandFrom [] t with
  | .error e => .error e
  | .ok (g, _) => .ok g

/-! ## Table structure parsing (`_parse_table_structure`) -/

/-- Python `list(zip(*rows))`: transpose truncating to the shortest row
(`zip` of no arguments gives the empty list). -/
def pyZip (ls : List (List Tag)) : List (List Tag) :=
  match ls with
  | [] => []
  | _ :: _ =>
      let k := ((ls.map List.length).min?).getD 0
      (List.range k).map (fun i => ls.map (fun r => r.getD i default))

/-- The body-row loop of `_parse_table_structure` (lines 161–172): skip
empty rows; the first cell's normalised text is the period label,
reduced to its first digit run when it has one and synthesised as
`str(len(periods) + 1)` when empty; the rest of the row is the cell
data. -/
def bodyStep (acc : List String × List (List Tag)) (row : List Tag) :
    List String × List (List Tag) :=
  match row with
  | [] => acc
  | c0 :: rest =>
      let pl0 := normalizeText c0.text
      let pl1 := if pl0 ≠ "" then
                   match firstDigitRun pl0 with
                   | some d => d
                   | none => pl0
                 else pl0
      let pl2 := if pl1 = "" then pyNatStr (acc.1.length + 1) else pl1
      (acc.1 ++ [pl2], acc.2 ++ [rest])

/-- Periods and body matrix of the body rows. -/
def parseBody (body : List (List Tag)) : List String × List (List Tag) :=
  body.foldl bodyStep ([], [])

/-- The pairs `(original column index, surviving normalised day label)`
of lines 180–186: enumerate the raw labels, keep those whose
`_normalize_day_label` result is truthy. -/
def keptPairs (rawDays : List String) : List (Nat × String) :=
  rawDays.enum.filterMap fun p =>
    match normalizeDayLabel p.2 with
    | some s => if s = "" then none else some (p.1, s)
    | none => none

/-- The sort key of line 189: position in `DAY_ORDER` for recognised
days, `len(DAY_ORDER) + original index` otherwise. -/
def pySortKey (p : Nat × String) : Nat :=
  if DAY_ORDER.contains p.2 then DAY_ORDER.indexOf p.2
  else DAY_ORDER.length + p.1

/-- Lines 187–192: stable sort of the kept pairs by `pySortKey`
(Python's `sorted`; embedded as the stable `insertionSort`), falling
back to `zip(range(len(raw_days)), raw_days)` when nothing survived. -/
def orderedPairs (rawDays : List String) : List (Nat × String) :=
  let ordered :=
    (keptPairs rawDays).insertionSort (fun a b => pySortKey a ≤ pySortKey b)
  if ordered = [] then rawDays.enum else ordered

/-- Lines 187–198: the ordered day axis and the matrix with its columns
reordered accordingly (`[row[idx] for idx, _ in ordered if idx < len(row)]`). -/
def orderDays (rawDays : List String) (matrixCells : List (List Tag)) :
    List String × List (List Tag) :=
  let ordered := orderedPairs rawDays
  (ordered.map (·.2),
   matrixCells.map (fun row => ordered.filterMap (fun p => row[p.1]?)))

/-- `_parse_table_structure` on an already-expanded grid (lines
154–198): header split, body parse, orientation check and transposition,
day canonicalisation and reordering. -/
def parseGrid (grid : List (List Tag)) :
    List String × List String × List (List Tag) :=
  match grid with
  | [] => ([], [], [])
  | header :: body =>
      let rawDays := (header.drop 1).map (fun c => normalizeText c.text)
      let pm := parseBody body
      let swapped :=
        if rawDays ≠ [] ∧ rawDays.all isPeriodLabel then
          (pm.1.map normalizeText, rawDays, pyZip pm.2)
        else (rawDays, pm.1, pm.2)
      let od := orderDays swapped.1 swapped.2.2
      (od.1, swapped.2.1, od.2)

/-- `_parse_table_structure`. -/
def parseTableStructure (t : List (List Tag)) :
    Except PyErr (List String × List String × List (List Tag)) :=
  (expandTable t).map parseGrid

/-! ## Week splitting (`_split_cell_by_week`, `_parse_cell_content`) -/

/-- The two alternating weeks (the `"odd"` / `"even"` keys of the
Python `week_map`). -/
inductive Week where
  | odd
  | even
  deriving DecidableEq, Repr

/-- `_detect_week_from_classes`. -/
def detectWeekFromClasses : List String → Option Week
  | [] => none
  | cls :: rest =>
      let lower := pyLower cls
      if pyContains lower "odd" || pyContains lower "week1" ||
         pyContains lower "aweek" then some .odd
      else if pyContains lower "even" || pyContains lower "week2" ||
              pyContains lower "bweek" then some .even
      else detectWeekFromClasses rest

/-- The per-child classification of `_split_cell_by_week` (lines
224–232): style/class markers first, then the `data-week` attribute. -/
def classifyChild (ch : ChildElem) : Option Week :=
  match detectWeekFromClasses ch.classes with
  | some w => some w
  | none =>
      match ch.dataWeek with
      | none => none
      | some attr =>
          let a := pyLower attr
          if pyContains a "odd" || pyEndsWith a "1" then some .odd
          else if pyContains a "even" || pyEndsWith a "2" then some .even
          else none

/-- The `week_map` dict returned by `_split_cell_by_week`. -/
structure WeekMap where
  odd : Option CellInfo := none
  even : Option CellInfo := none
  deriving DecidableEq, Repr

/-- `entry_elements` (lines 221–234): the classified direct element
children, or the cell itself as a single unclassified entry when there
are none.  Downstream only each entry's `stripped_strings` are read, so
an entry is represented by its lines. -/
def entryElements (cell : Tag) : List (Option Week × List String) :=
  if cell.children = [] then [(none, cell.lines)]
  else cell.children.map (fun ch => (classifyChild ch, ch.lines))

/-- The bucketing loop of lines 235–244: split the entries into the odd,
even and unknown lists, preserving order.  (The Python loop appends to
three lists while walking left to right; building them by structural
recursion produces the same three lists.) -/
def bucketWeeks : List (Option Week × List String) →
    List (List String) × List (List String) × List (List String)
  | [] => ([], [], [])
  | e :: es =>
      let r := bucketWeeks es
      match e.1 with
      | some .odd => (e.2 :: r.1, r.2.1, r.2.2)
      | some .even => (r.1, e.2 :: r.2.1, r.2.2)
      | none => (r.1, r.2.1, e.2 :: r.2.2)

/-- The fallback cascade of lines 245–256, applied in source order to
the bucketed `(odd, even, unknown)` entry lists: the two-unknowns
positional rule, the first-unknown/last-unknown defaults, then the
copy-the-populated-side rules.  Returns the final
`(odd_entries, even_entries)`. -/
def weekCascade (o0 e0 u0 : List (List String)) :
    List (List String) × List (List String) :=
  let s1 :=
    if o0 = [] ∧ e0 = [] ∧ u0.length = 2 then
      (o0 ++ [u0.getD 0 []], e0 ++ [u0.getD 1 []], ([] : List (List String)))
    else (o0, e0, u0)
  let o1 := s1.1
  let e1 := s1.2.1
  let u1 := s1.2.2
  let o2 := if o1 = [] ∧ u1 ≠ [] then o1 ++ [u1.getD 0 []] else o1
  let e2 := if e1 = [] ∧ u1 ≠ [] then e1 ++ [(u1.getLast?).getD []] else e1
  let e3 := if o2 ≠ [] ∧ e2 = [] then o2 else e2
  let o3 := if e3 ≠ [] ∧ o2 = [] then e3 else o2
  (o3, e3)

/-- `_split_cell_by_week`: bucket the entries, run the fallback cascade
of lines 245–256 in order, then build the week map from the surviving
entry lists (lines 257–262). -/
def splitCellByWeek (cell : Tag) : WeekMap :=
  let b := bucketWeeks (entryElements cell)
  let oe := weekCascade b.1 b.2.1 b.2.2
  { odd := if oe.1 ≠ [] then some (parseEntryLines (oe.1.flatten.map normalizeText))
           else none
    even := if oe.2 ≠ [] then some (parseEntryLines (oe.2.flatten.map normalizeText))
            else none }

/-- `_parse_cell_content`. -/
def parseCellContent (cell : Tag) : CellInfo :=
  parseEntryLines (cell.lines.map normalizeText)

/-! ## Week-matrix building (`_build_week_matrices`) -/

/-- An `odd`/`even` matrix of entries. -/
abbrev Matrix : Type := List (List CellInfo)

/-- `_build_week_matrices`.  Note that for a Python list `x`,
`x or []` is `x` itself (both when `x` is non-empty and when it is
`[]`), so the final `return days or [], ...` adds nothing beyond
replacing `None` — which cannot reach it — and is dropped. -/
def buildWeekMatrices (tables : List (List (List Tag)))
    (global_days : Option (List String)) :
    Except PyErr (List String × List String × Matrix × Matrix) :=
  match tables with
  | t1 :: t2 :: _ =>
      match parseTableStructure t1 with
      | .error e => .error e
      | .ok (d1, p1, c1) =>
          match parseTableStructure t2 with
          | .error e => .error e
          | .ok (d2, p2, c2) =>
              let days := match global_days with
                | none => d1
                | some g => if g = [] then d1 else g
              let periods := p1
              let odd := c1.map (·.map parseCellContent)
              let even := c2.map (·.map parseCellContent)
              let disagree : Prop := days ≠ d2 ∨ periods ≠ p2
              let days2 := if disagree then (if days = [] then d2 else days) else days
              let periods2 := if disagree then (if periods = [] then p2 else periods)
                              else periods
              .ok (days2, periods2, odd, even)
  | [t] =>
      match parseTableStructure t with
      | .error e => .error e
      | .ok (days, periods, cellGrid) =>
          let odd := cellGrid.map (fun row => row.map (fun cell =>
            ((splitCellByWeek cell).odd).getD (parseEntryLines [])))
          let even := cellGrid.map (fun row => row.map (fun cell =>
            ((splitCellByWeek cell).even).getD
              (((splitCellByWeek cell).odd).getD (parseEntryLines []))))
          .ok (days, periods, odd, even)
  | [] => .ok (global_days.getD [], [], [], [])

/-! ## Documents, section collection and loading (`_load_html`,
`_collect_sections`, `load_classes`, `load_teachers`)

The HTML parsing done by BeautifulSoup is outside the module; a parsed
document is modelled as the sequence of top-level nodes that
`_collect_sections` / `_extract_tables_after_heading` walk: headings
(`h1`–`h4`), tables and anything else. -/

/-- A top-level node of a parsed document. -/
inductive Node where
  | heading (txt : String)
  | table (t : List (List Tag))
  | other
  deriving DecidableEq, Repr

/-- A parsed document. -/
abbrev Doc : Type := List Node

/-- `_extract_tables_after_heading`: the tables among the following
siblings, stopping at the next heading. -/
def tablesAfter (rest : Doc) : List (List (List Tag)) :=
  (rest.takeWhile (fun n => match n with | .heading _ => false | _ => true)).filterMap
    (fun n => match n with | .table t => some t | _ => none)

/-- Python dict assignment on an association list: replace the value in
place when the key exists, append otherwise. -/
def upsert {α : Type} (acc : List (String × α)) (k : String) (v : α) :
    List (String × α) :=
  if (acc.lookup k).isSome then
    acc.map (fun p => if p.1 = k then (k, v) else p)
  else acc ++ [(k, v)]

/-- `_collect_sections`: walk the headings in document order; a heading
with a non-empty normalised title followed by at least one table
contributes a section. -/
def collectSectionsAux :
    Doc → List (String × List (List (List Tag))) →
    List (String × List (List (List Tag)))
  | [], acc => acc
  | .heading txt :: rest, acc =>
      let title := normalizeText txt
      if title = "" then collectSectionsAux rest acc
      else
        let ts := tablesAfter rest
        if ts = [] then collectSectionsAux rest acc
        else collectSectionsAux rest (upsert acc title ts)
  | _ :: rest, acc => collectSectionsAux rest acc

/-- `_collect_sections`. -/
def collectSections (doc : Doc) : List (String × List (List (List Tag))) :=
  collectSectionsAux doc []

/-- The per-document result structure.  (`load_classes` additionally
derives `schools` / `school_to_classes` from the class names; those
derived fields are not consumed by any claim and are left out of the
embedding.) -/
structure DocData where
  days : List String
  periods : List String
  odd_week : List (String × Matrix)
  even_week : List (String × Matrix)
  names : List String
  deriving DecidableEq, Repr

/-- The per-section loop state of `load_classes` / `load_teachers`:
accumulated `days`, `periods`, `odd_week`, `even_week`. -/
abbrev AggSt : Type :=
  List String × List String × List (String × Matrix) × List (String × Matrix)

/-- One iteration of the per-section loop of `load_classes` /
`load_teachers` (lines 346–353 / 378–384). -/
def aggStep (sections : List (String × List (List (List Tag))))
    (st : AggSt) (name : String) : Except PyErr AggSt :=
  match buildWeekMatrices ((sections.lookup name).getD [])
      (if st.1 = [] then none else some st.1) with
  | .error e => .error e
  | .ok (cd, cp, om, em) =>
      .ok (if cd ≠ [] ∧ st.1 = [] then cd else st.1,
           if cp ≠ [] ∧ st.2.1 = [] then cp else st.2.1,
           st.2.2.1 ++ [(name, om)],
           st.2.2.2 ++ [(name, em)])

/-- The shared aggregation of `load_classes` / `load_teachers`: iterate
the sections in sorted-name order, threading the global axes. -/
def aggregateSections (sections : List (String × List (List (List Tag)))) :
    Except PyErr DocData :=
  match ((sections.map Prod.fst).insertionSort (fun a b => pyStrLe a b = true)).foldlM
      (aggStep sections) ([], [], [], []) with
  | .error e => .error e
  | .ok st => .ok ⟨st.1, st.2.1, st.2.2.1, st.2.2.2,
      (sections.map Prod.fst).insertionSort (fun a b => pyStrLe a b = true)⟩

/-- The static file system the loaders read from: maps a file name to
its parsed document when the file exists. -/
abbrev FS : Type := String → Option Doc

/-- `_load_html`: `FileNotFoundError` when the expected file is absent,
the parsed document otherwise. -/
def loadHtml (fs : FS) (filename : String) : Except PyErr Doc :=
  match fs filename with
  | none => .error .fileNotFound
  | some d => .ok d

/-- `load_classes`. -/
def loadClasses (fs : FS) : Except PyErr DocData :=
  match loadHtml fs "Classes.html" with
  | .error e => .error e
  | .ok doc => aggregateSections (collectSections doc)

/-- `load_teachers`. -/
def loadTeachers (fs : FS) : Except PyErr DocData :=
  match loadHtml fs "Teachers.html" with
  | .error e => .error e
  | .ok doc => aggregateSections (collectSections doc)

/-! ## Generic instances and derived notions used by the statements -/

instance {ε α : Type} [DecidableEq ε] [DecidableEq α] :
    DecidableEq (Except ε α) := fun a b =>
  match a, b with
  | .ok x, .ok y =>
      if h : x = y then isTrue (by rw [h]) else isFalse (by simp [h])
  | .error x, .error y =>
      if h : x = y then isTrue (by rw [h]) else isFalse (by simp [h])
  | .ok _, .error _ => isFalse (by simp)
  | .error _, .ok _ => isFalse (by simp)

/-- The day axis a section parses on its own, with no global axis
established yet (used to state the first-non-empty-wins behaviour of
the loaders). -/
def specOwnDays (sections : List (String × List (List (List Tag))))
    (name : String) : List String :=
  match buildWeekMatrices ((sections.lookup name).getD []) none with
  | .ok (d, _, _, _) => d
  | .error _ => []

/-- The first non-empty day axis among the sections' own axes, in
sorted-name order (the axis the loaders are claimed to adopt). -/
def firstOwnDays (sections : List (String × List (List (List Tag)))) :
    List String :=
  ((((sections.map Prod.fst).insertionSort (fun a b => pyStrLe a b = true)).map
      (specOwnDays sections)).find? (fun d => d ≠ [])).getD []

/-! ## Concrete cells, tables and documents used by counterexamples and
witnesses -/

/-- A plain cell with the given text (one visible line, no spans, no
children). -/
def mkText (s : String) : Tag := { text := s, lines := [s] }

/-- A cell with the given `stripped_strings`. -/
def mkLines (ls : List String) : Tag := { lines := ls }

/-- A cell whose `rowspan` attribute is a non-numeric string. -/
def cellJunkSpan : Tag := { rowspanAttr := some .junk, text := "J", lines := ["J"] }

/-- A cell declaring `colspan="0"`. -/
def cellColZero : Tag := { colspanAttr := some (.num 0), text := "Z", lines := ["Z"] }

/-- A cell declaring `rowspan="2"`. -/
def cellRowTwo : Tag := { rowspanAttr := some (.num 2), text := "S", lines := ["S"] }

/-- Cells of the span-interference table `tblSkip`. -/
def cellA : Tag := mkText "A"

/-- `rowspan="2"` cell placed at column 1 of the first row of `tblSkip`. -/
def cellB2 : Tag := { rowspanAttr := some (.num 2), text := "B", lines := ["B"] }

/-- `colspan="2"` cell forming the whole second row of `tblSkip`. -/
def cellD2 : Tag := { colspanAttr := some (.num 2), text := "D", lines := ["D"] }

/-- Plain cell of the third row of `tblSkip`. -/
def cellE : Tag := mkText "E"

/-- A table where the `colspan="2"` cell of row 1 skips over the column
occupied by the pending `rowspan="2"` span of `cellB2`, deferring that
span to row 2. -/
def tblSkip : List (List Tag) := [[cellA, cellB2], [cellD2], [cellE]]

/-- A header-only table: parsing yields empty day and period axes. -/
def tblHeaderOnly : List (List Tag) := [[mkText "x"]]

/-- A one-day one-period table with day label `Даваа`. -/
def tblMonday : List (List Tag) :=
  [[mkText "x", mkText "Даваа"], [mkText "1", mkLines ["D"]]]

/-- A one-day one-period table with day label `Мягмар`. -/
def tblTuesday : List (List Tag) :=
  [[mkText "x", mkText "Мягмар"], [mkText "1", mkLines ["T"]]]

/-- A two-day header whose single body row carries only one data cell
(ragged body row). -/
def tblRagged : List (List Tag) :=
  [[mkText "", mkText "Даваа", mkText "Мягмар"],
   [mkText "1", mkLines ["Math"]]]

/-- A one-day table with two periods. -/
def tblMondayTwo : List (List Tag) :=
  [[mkText "x", mkText "Даваа"],
   [mkText "1", mkLines ["p"]], [mkText "2", mkLines ["q"]]]

/-- Classes document for the C1 counterexample: section `A` has a
single table with a ragged body row; section `B` publishes two tables
whose body row counts differ. -/
def docRagged : Doc :=
  [.heading "A", .table tblRagged,
   .heading "B", .table tblMonday, .table tblMondayTwo]

/-- File system carrying `docRagged` as `Classes.html`. -/
def fsRagged : FS := fun n => if n = "Classes.html" then some docRagged else none

/-- Classes document for the C8 counterexample: two sections with
different non-empty day axes. -/
def docTwoAxes : Doc :=
  [.heading "A", .table tblMonday, .heading "B", .table tblTuesday]

/-- File system carrying `docTwoAxes` as `Classes.html`. -/
def fsTwoAxes : FS := fun n => if n = "Classes.html" then some docTwoAxes else none

/-- The empty file system (no document exists). -/
def fsEmpty : FS := fun _ => none

/-- State invariant of one row of `_expand_table` relative to the
`span_map` `m0` the row started with: the accumulated row is exactly as
long as the cursor; the map is untouched at and beyond the cursor; and
every column below the cursor that `m0` had pending received the
pending cell, with its remaining count stepped (deleted when it reached
zero). -/
def INV1 (m0 : SpanMap) (st : List Tag × SpanMap × Nat) : Prop :=
  st.1.length = st.2.2 ∧
  (∀ x, st.2.2 ≤ x → lookupS st.2.1 x = lookupS m0 x) ∧
  (∀ x, x < st.2.2 → ∀ cell k, lookupS m0 x = some (cell, k) →
      st.1[x]? = some cell ∧
      lookupS st.2.1 x = if k - 1 = 0 then none else some (cell, k - 1))

/-- Every cell of the list declares (or defaults to) column-span 1. -/
def ColOne (cells : List Tag) : Prop :=
  ∀ cell ∈ cells, parseSpan cell.colspanAttr = .ok 1

/-- Minimal classes document: one section `A` with the one-day
one-period table. -/
def docMini : Doc := [.heading "A", .table tblMonday]

/-- File system carrying `docMini` as `Classes.html`. -/
def fsMini : FS := fun n => if n = "Classes.html" then some docMini else none

/-- The entry parsed from the single body cell of `tblMonday`. -/
def entryD : CellInfo := { subject := "D", second_line := "", third_line := "", extra_lines := [] }

/-- The result `load_classes` produces on `fsMini`. -/
def resMini : DocData :=
  { days := ["Даваа"], periods := ["1"],
    odd_week := [("A", [[entryD]])], even_week := [("A", [[entryD]])],
    names := ["A"] }

/-- One-line entry with the given subject and nothing else. -/
def soleEntry (s : String) : CellInfo :=
  { subject := s, second_line := "", third_line := "", extra_lines := [] }

/-- The result `load_classes` produces on `fsTwoAxes`. -/
def resTwoAxes : DocData :=
  { days := ["Даваа"], periods := ["1"],
    odd_week := [("A", [[soleEntry "D"]]), ("B", [[soleEntry "T"]])],
    even_week := [("A", [[soleEntry "D"]]), ("B", [[soleEntry "T"]])],
    names := ["A", "B"] }

/-- The result `load_classes` produces on `fsRagged`. -/
def resRagged : DocData :=
  { days := ["Даваа", "Мягмар"], periods := ["1"],
    odd_week := [("A", [[soleEntry "Math"]]), ("B", [[soleEntry "D"]])],
    even_week := [("A", [[soleEntry "Math"]]),
                  ("B", [[soleEntry "p"], [soleEntry "q"]])],
    names := ["A", "B"] }

/-- Classes document of the witness scenarios: one section `10A` with
one 2-day × 2-period table. -/
def docBasic : Doc :=
  [.heading "10A",
   .table [[mkText "", mkText "Даваа", mkText "Мягмар"],
           [mkText "1", mkLines ["Math", "Ms.X", "Room1"], mkLines ["B"]],
           [mkText "2", mkLines ["C"], mkLines ["D"]]]]

/-- File system carrying `docBasic` as `Classes.html`. -/
def fsBasic : FS := fun n => if n = "Classes.html" then some docBasic else none

/-! # Helper lemmas -/

theorem parseSpan_ok_of_ne (v : Option AttrVal) (h : v ≠ some .junk) :
    ∃ n, parseSpan v = .ok n := by
  match v with
  | none => exact ⟨1, rfl⟩
  | some (.num n) => exact ⟨n, rfl⟩
  | some .junk => exact absurd rfl h

theorem placeCells_junk (cells : List Tag) : ∀ st,
    (∃ cell ∈ cells,
        cell.rowspanAttr = some .junk ∨ cell.colspanAttr = some .junk) →
    placeCells st cells = .error .valueError := by
  induction cells with
  | nil => rintro st ⟨c, hc, -⟩; cases hc
  | cons c rest ih =>
      rintro ⟨row, m, cur⟩ ⟨c', hc', hj⟩
      by_cases hr : c.rowspanAttr = some .junk
      · simp only [placeCells]
        rw [hr]
        simp [parseSpan]
      · rcases parseSpan_ok_of_ne c.rowspanAttr hr with ⟨rs, hrs⟩
        by_cases hcs : c.colspanAttr = some .junk
        · simp only [placeCells]
          rw [hrs, hcs]
          simp [parseSpan]
        · rcases parseSpan_ok_of_ne c.colspanAttr hcs with ⟨cs, hcsv⟩
          simp only [placeCells]
          rw [hrs, hcsv]
          rcases List.mem_cons.mp hc' with rfl | hmem
          · rcases hj with h | h
            exacts [absurd h hr, absurd h hcs]
          · exact ih _ ⟨c', hmem, hj⟩

theorem placeCells_total (cells : List Tag) : ∀ st,
    (∀ cell ∈ cells,
        cell.rowspanAttr ≠ some .junk ∧ cell.colspanAttr ≠ some .junk) →
    ∃ st', placeCells st cells = .ok st' := by
  induction cells with
  | nil => exact fun st _ => ⟨st, rfl⟩
  | cons c rest ih =>
      rintro ⟨row, m, cur⟩ h
      rcases parseSpan_ok_of_ne c.rowspanAttr (h c (by simp)).1 with ⟨rs, hrs⟩
      rcases parseSpan_ok_of_ne c.colspanAttr (h c (by simp)).2 with ⟨cs, hcs⟩
      simp only [placeCells, hrs, hcs]
      exact ih _ (fun cell hm => h cell (by simp [hm]))

theorem processRow_total (m : SpanMap) (cells : List Tag)
    (h : ∀ cell ∈ cells,
        cell.rowspanAttr ≠ some .junk ∧ cell.colspanAttr ≠ some .junk) :
    ∃ row m', processRow m cells = .ok (row, m') := by
  rcases placeCells_total cells ((drain m 0).1, (drain m 0).2.1, (drain m 0).2.2) h
    with ⟨⟨row, m1, c1⟩, hst⟩
  exact ⟨row ++ (drain m1 c1).1, (drain m1 c1).2.1, by simp only [processRow, hst]⟩

theorem processRow_junk (m : SpanMap) (cells : List Tag)
    (h : ∃ cell ∈ cells,
        cell.rowspanAttr = some .junk ∨ cell.colspanAttr = some .junk) :
    processRow m cells = .error .valueError := by
  simp only [processRow, placeCells_junk cells _ h]

theorem expandFrom_total (rows : List (List Tag)) : ∀ m,
    (∀ row ∈ rows, ∀ cell ∈ row,
        cell.rowspanAttr ≠ some .junk ∧ cell.colspanAttr ≠ some .junk) →
    ∃ g mf, expandFrom m rows = .ok (g, mf) := by
  induction rows with
  | nil => exact fun m _ => ⟨[], m, rfl⟩
  | cons r rest ih =>
      intro m h
      rcases processRow_total m r (h r (by simp)) with ⟨row, m1, hr⟩
      rcases ih m1 (fun row hm => h row (by simp [hm])) with ⟨g, mf, hg⟩
      exact ⟨row :: g, mf, by simp only [expandFrom, hr, hg]⟩

theorem expandFrom_junk (rows : List (List Tag)) : ∀ m,
    (∃ row ∈ rows, ∃ cell ∈ row,
        cell.rowspanAttr = some .junk ∨ cell.colspanAttr = some .junk) →
    expandFrom m rows = .error .valueError := by
  induction rows with
  | nil => rintro m ⟨r, hr, -⟩; cases hr
  | cons r rest ih =>
      rintro m ⟨r', hr', hj⟩
      by_cases hjr : ∃ cell ∈ r,
          cell.rowspanAttr = some .junk ∨ cell.colspanAttr = some .junk
      · simp only [expandFrom, processRow_junk m r hjr]
      · rcases List.mem_cons.mp hr' with rfl | hmem
        · exact absurd hj hjr
        · push_neg at hjr
          rcases processRow_total m r (fun cell hc => hjr cell hc) with ⟨row, m1, hrow⟩
          simp only [expandFrom, hrow, ih m1 ⟨r', hmem, hj⟩]

/-! # Claim C9 -/

/-- C9: requesting a load of a document whose file does not exist fails
immediately with the `FileNotFoundError` (`Fatal/Load`) and yields no
result structure (the loader's `Except` carries no data). -/
theorem c9_missing_file_fatal (fs : FS) :
    (fs "Classes.html" = none → loadClasses fs = .error .fileNotFound) ∧
    (fs "Teachers.html" = none → loadTeachers fs = .error .fileNotFound) :=
  ⟨fun h => by simp only [loadClasses, loadHtml, h],
   fun h => by simp only [loadTeachers, loadHtml, h]⟩

theorem c9_missing_file_fatal_witness :
    fsEmpty "Classes.html" = none ∧
    loadClasses fsEmpty = .error .fileNotFound :=
  ⟨rfl, (c9_missing_file_fatal fsEmpty).1 rfl⟩

/-! # Claim C3 -/

/-- C3 counterexample.  The claim says every absent or
non-positive/invalid span count is treated as `1` and that expansion
never raises.  In the code (`parsers.py` lines 128–134) the spans go
through a bare `int(...)` with no clamping: a non-numeric `rowspan`
raises `ValueError` (first conjunct), and a `colspan="0"` cell is
placed in zero columns — the expanded row is empty — instead of being
treated as span 1 (second conjunct). -/
theorem c3_counterexample :
    expandTable [[cellJunkSpan]] = .error .valueError ∧
    expandTable [[cellColZero]] = .ok [[]] := by
  constructor <;> decide

/-- C3 amended: an absent span attribute defaults to `1` (a cell with
both attributes absent is processed exactly like one declaring
`rowspan="1" colspan="1"`: placed once, no vertical span registered); a
numeric span is used unclamped, so a cell with `colspan ≤ 0` occupies
no column of its row; a non-numeric span attribute makes the whole
expansion raise `ValueError`, and expansion succeeds precisely when no
span attribute is non-numeric. -/
theorem c3_span_handling :
    (∀ t, (∀ row ∈ t, ∀ cell ∈ row,
        cell.rowspanAttr ≠ some .junk ∧ cell.colspanAttr ≠ some .junk) →
        ∃ g, expandTable t = .ok g) ∧
    (∀ t, (∃ row ∈ t, ∃ cell ∈ row,
        cell.rowspanAttr = some .junk ∨ cell.colspanAttr = some .junk) →
        expandTable t = .error .valueError) ∧
    (∀ row m c (cell : Tag), cell.rowspanAttr = none → cell.colspanAttr = none →
        placeCells (row, m, c) [cell] =
          .ok (row ++ (drain m c).1 ++ [cell],
               (drain m c).2.1, (drain m c).2.2 + 1)) ∧
    (∀ row m c (cell : Tag), cell.rowspanAttr = some (.num 1) →
        cell.colspanAttr = some (.num 1) →
        placeCells (row, m, c) [cell] =
          .ok (row ++ (drain m c).1 ++ [cell],
               (drain m c).2.1, (drain m c).2.2 + 1)) ∧
    (∀ row m c (cell : Tag) k, cell.colspanAttr = some (.num k) → k ≤ 0 →
        cell.rowspanAttr ≠ some .junk →
        placeCells (row, m, c) [cell] =
          .ok (row ++ (drain m c).1, (drain m c).2.1, (drain m c).2.2)) := by
  refine ⟨fun t h => ?_, fun t h => ?_, fun row m c cell h1 h2 => ?_,
    fun row m c cell h1 h2 => ?_, fun row m c cell k hc hk hr => ?_⟩
  · rcases expandFrom_total t [] h with ⟨g, mf, hg⟩
    exact ⟨g, by simp only [expandTable, hg]⟩
  · simp only [expandTable, expandFrom_junk t [] h]
  · simp [placeCells, parseSpan, h1, h2, placeCopies]
  · simp [placeCells, parseSpan, h1, h2, placeCopies]
  · rcases parseSpan_ok_of_ne cell.rowspanAttr hr with ⟨rs, hrs⟩
    simp only [placeCells]
    rw [hrs, hc]
    simp [parseSpan, Int.toNat_of_nonpos hk, placeCopies]

theorem c3_span_handling_witness :
    (∃ g, expandTable [[mkText "a"]] = .ok g) ∧
    expandTable [[cellJunkSpan]] = .error .valueError :=
  ⟨c3_span_handling.1 [[mkText "a"]] (by decide),
   c3_span_handling.2.1 [[cellJunkSpan]] (by decide)⟩

/-! # Claims C6 and C10: the cell content splitter -/

theorem bucketWeeks_len (es : List (Option Week × List String)) :
    (bucketWeeks es).1.length + (bucketWeeks es).2.1.length +
      (bucketWeeks es).2.2.length = es.length := by
  induction es with
  | nil => rfl
  | cons e rest ih =>
      rcases e with ⟨w, ls⟩
      rcases w with _ | w
      · simp only [bucketWeeks, List.length_cons]
        omega
      · cases w <;> simp only [bucketWeeks, List.length_cons] <;> omega

theorem bucketWeeks_all_odd (es : List (Option Week × List String))
    (h : ∀ e ∈ es, e.1 = some Week.odd) :
    bucketWeeks es = (es.map Prod.snd, [], []) := by
  induction es with
  | nil => rfl
  | cons e rest ih =>
      have he := h e (by simp)
      simp only [bucketWeeks, ih (fun x hx => h x (by simp [hx])), he, List.map_cons]

theorem bucketWeeks_all_even (es : List (Option Week × List String))
    (h : ∀ e ∈ es, e.1 = some Week.even) :
    bucketWeeks es = ([], es.map Prod.snd, []) := by
  induction es with
  | nil => rfl
  | cons e rest ih =>
      have he := h e (by simp)
      simp only [bucketWeeks, ih (fun x hx => h x (by simp [hx])), he, List.map_cons]

theorem weekCascade_total (o0 e0 u0 : List (List String))
    (h : ¬(o0 = [] ∧ e0 = [] ∧ u0 = [])) :
    (weekCascade o0 e0 u0).1 ≠ [] ∧ (weekCascade o0 e0 u0).2 ≠ [] := by
  by_cases ho : o0 = [] <;> by_cases he : e0 = [] <;> by_cases hu : u0 = []
  · exact absurd ⟨ho, he, hu⟩ h
  all_goals by_cases h2 : u0.length = 2
  all_goals simp_all [weekCascade]

theorem weekCascade_only_odd (L : List (List String)) (hL : L ≠ []) :
    weekCascade L [] [] = (L, L) := by
  simp [weekCascade, hL]

theorem weekCascade_only_even (L : List (List String)) (hL : L ≠ []) :
    weekCascade [] L [] = (L, L) := by
  simp [weekCascade, hL]

theorem weekCascade_one_unknown (l : List String) :
    weekCascade [] [] [l] = ([l], [l]) := by
  simp [weekCascade]

theorem weekCascade_two_unknown (l1 l2 : List String) :
    weekCascade [] [] [l1, l2] = ([l1], [l2]) := by
  simp [weekCascade]

theorem entryElements_ne_nil (t : Tag) : entryElements t ≠ [] := by
  unfold entryElements
  by_cases h : t.children = []
  · simp [h]
  · simp [h]

/-- C10: `_split_cell_by_week` always returns a map containing both an
odd-week and an even-week entry — neither key is ever absent, so the
empty-entry defaults `week_entries.get(...)` at the matrix-building
call site are never exercised — and a cell without element children is
treated as one unknown entry assigned identically to both weeks. -/
theorem c10_split_total (t : Tag) :
    ∃ o e, splitCellByWeek t = { odd := some o, even := some e } ∧
      (∀ d, ((splitCellByWeek t).odd).getD d = o) ∧
      (∀ d, ((splitCellByWeek t).even).getD d = e) ∧
      (t.children = [] →
        e = o ∧ o = parseEntryLines (t.lines.map normalizeText)) := by
  have hsum := bucketWeeks_len (entryElements t)
  have hne := entryElements_ne_nil t
  have hb : ¬((bucketWeeks (entryElements t)).1 = [] ∧
      (bucketWeeks (entryElements t)).2.1 = [] ∧
      (bucketWeeks (entryElements t)).2.2 = []) := by
    rintro ⟨h1, h2, h3⟩
    rw [h1, h2, h3] at hsum
    exact hne (List.length_eq_zero.mp (by simpa using hsum.symm))
  obtain ⟨ho3, he3⟩ := weekCascade_total _ _ _ hb
  have hodd : (splitCellByWeek t).odd =
      some (parseEntryLines ((weekCascade (bucketWeeks (entryElements t)).1
        (bucketWeeks (entryElements t)).2.1
        (bucketWeeks (entryElements t)).2.2).1.flatten.map normalizeText)) := by
    simp only [splitCellByWeek]
    rw [if_pos ho3]
  have heven : (splitCellByWeek t).even =
      some (parseEntryLines ((weekCascade (bucketWeeks (entryElements t)).1
        (bucketWeeks (entryElements t)).2.1
        (bucketWeeks (entryElements t)).2.2).2.flatten.map normalizeText)) := by
    simp only [splitCellByWeek]
    rw [if_pos he3]
  refine ⟨parseEntryLines ((weekCascade (bucketWeeks (entryElements t)).1
      (bucketWeeks (entryElements t)).2.1
      (bucketWeeks (entryElements t)).2.2).1.flatten.map normalizeText),
    parseEntryLines ((weekCascade (bucketWeeks (entryElements t)).1
      (bucketWeeks (entryElements t)).2.1
      (bucketWeeks (entryElements t)).2.2).2.flatten.map normalizeText),
    ?_, ?_, ?_, ?_⟩
  · have hsplit : splitCellByWeek t =
        ⟨(splitCellByWeek t).odd, (splitCellByWeek t).even⟩ := rfl
    rw [hsplit, hodd, heven]
  · intro d
    rw [hodd]
    rfl
  · intro d
    rw [heven]
    rfl
  · intro hch
    have hee : entryElements t = [(none, t.lines)] := by simp [entryElements, hch]
    have hbb : bucketWeeks (entryElements t) = ([], [], [t.lines]) := by
      rw [hee]
      rfl
    rw [hbb, weekCascade_one_unknown]
    simp

theorem c10_split_total_witness :
    splitCellByWeek (mkLines ["X", "Y"]) =
      { odd := some (parseEntryLines (["X", "Y"].map normalizeText)),
        even := some (parseEntryLines (["X", "Y"].map normalizeText)) } := by
  obtain ⟨o, e, heq, -, -, himp⟩ := c10_split_total (mkLines ["X", "Y"])
  obtain ⟨he, ho⟩ := himp rfl
  rw [heq, he, ho]
  rfl

/-- C6: in single-table mode, a cell whose two children carry no week
marker sends the first child to the odd week and the second to the even
week; and whenever the cascade leaves exactly one side populated — all
children marked for one week only — the empty side receives a copy of
the populated side, so in particular any one-child cell yields equal
odd and even entries. -/
theorem c6_cell_split (t : Tag) :
    (∀ ch1 ch2, t.children = [ch1, ch2] →
        classifyChild ch1 = none → classifyChild ch2 = none →
        splitCellByWeek t =
          { odd := some (parseEntryLines (ch1.lines.map normalizeText)),
            even := some (parseEntryLines (ch2.lines.map normalizeText)) }) ∧
    ((t.children ≠ [] ∧ ∀ ch ∈ t.children, classifyChild ch = some .odd) →
        (splitCellByWeek t).even = (splitCellByWeek t).odd) ∧
    ((t.children ≠ [] ∧ ∀ ch ∈ t.children, classifyChild ch = some .even) →
        (splitCellByWeek t).odd = (splitCellByWeek t).even) ∧
    (∀ ch, t.children = [ch] →
        (splitCellByWeek t).odd = (splitCellByWeek t).even) := by
  refine ⟨fun ch1 ch2 hch h1 h2 => ?_, fun ⟨hne, hall⟩ => ?_, fun ⟨hne, hall⟩ => ?_,
    fun ch hch => ?_⟩
  · have hee : entryElements t = [(none, ch1.lines), (none, ch2.lines)] := by
      simp [entryElements, hch, h1, h2]
    have hbb : bucketWeeks (entryElements t) = ([], [], [ch1.lines, ch2.lines]) := by
      rw [hee]
      rfl
    simp only [splitCellByWeek, hbb, weekCascade_two_unknown]
    simp
  · have hee : entryElements t =
        t.children.map (fun ch => (classifyChild ch, ch.lines)) := by
      simp [entryElements, hne]
    have hbb : bucketWeeks (entryElements t) =
        ((t.children.map (fun ch => (classifyChild ch, ch.lines))).map Prod.snd, [], []) := by
      rw [hee]
      exact bucketWeeks_all_odd _ (by simpa using fun ch hm => hall ch hm)
    have hmapne :
        (t.children.map (fun ch => (classifyChild ch, ch.lines))).map Prod.snd ≠ [] := by
      simp [hne]
    simp only [splitCellByWeek, hbb, weekCascade_only_odd _ hmapne]
  · have hee : entryElements t =
        t.children.map (fun ch => (classifyChild ch, ch.lines)) := by
      simp [entryElements, hne]
    have hbb : bucketWeeks (entryElements t) =
        ([], (t.children.map (fun ch => (classifyChild ch, ch.lines))).map Prod.snd, []) := by
      rw [hee]
      exact bucketWeeks_all_even _ (by simpa using fun ch hm => hall ch hm)
    have hmapne :
        (t.children.map (fun ch => (classifyChild ch, ch.lines))).map Prod.snd ≠ [] := by
      simp [hne]
    simp only [splitCellByWeek, hbb, weekCascade_only_even _ hmapne]
  · have hee : entryElements t = [(classifyChild ch, ch.lines)] := by
      simp [entryElements, hch]
    match hcl : classifyChild ch with
    | none =>
        have hbb : bucketWeeks (entryElements t) = ([], [], [ch.lines]) := by
          rw [hee, hcl]
          rfl
        simp only [splitCellByWeek, hbb, weekCascade_one_unknown]
    | some .odd =>
        have hbb : bucketWeeks (entryElements t) = ([ch.lines], [], []) := by
          rw [hee, hcl]
          rfl
        simp only [splitCellByWeek, hbb,
          weekCascade_only_odd [ch.lines] (by simp)]
    | some .even =>
        have hbb : bucketWeeks (entryElements t) = ([], [ch.lines], []) := by
          rw [hee, hcl]
          rfl
        simp only [splitCellByWeek, hbb,
          weekCascade_only_even [ch.lines] (by simp)]

theorem c6_cell_split_witness :
    splitCellByWeek { children := [⟨[], none, ["U1"]⟩, ⟨[], none, ["U2"]⟩] } =
      { odd := some (parseEntryLines (["U1"].map normalizeText)),
        even := some (parseEntryLines (["U2"].map normalizeText)) } ∧
    (splitCellByWeek { children := [⟨["week1"], none, ["O"]⟩] }).odd =
      (splitCellByWeek { children := [⟨["week1"], none, ["O"]⟩] }).even :=
  ⟨(c6_cell_split _).1 ⟨[], none, ["U1"]⟩ ⟨[], none, ["U2"]⟩ rfl (by decide) (by decide),
   (c6_cell_split _).2.2.2 ⟨["week1"], none, ["O"]⟩ rfl⟩

/-! # Claim C4: orientation detection -/

/-- C4: on a non-empty expanded grid, `_parse_table_structure`
transposes — the synthesized period labels become the day-header
source, the original header labels become the period axis, and the body
matrix is transposed — exactly when the header carries at least one
label after the corner cell and every normalised label contains a
decimal digit; if some normalised label has no digit (or there is no
label at all) the axes and the body matrix keep their roles. -/
theorem c4_orientation (header : List Tag) (body : List (List Tag)) :
    (((header.drop 1).map (fun c => normalizeText c.text) ≠ [] ∧
      ∀ l ∈ (header.drop 1).map (fun c => normalizeText c.text),
        ∃ ch ∈ l.data, isDigitCh ch) →
      parseGrid (header :: body) =
        ((orderDays ((parseBody body).1.map normalizeText)
            (pyZip (parseBody body).2)).1,
         (header.drop 1).map (fun c => normalizeText c.text),
         (orderDays ((parseBody body).1.map normalizeText)
            (pyZip (parseBody body).2)).2)) ∧
    (¬((header.drop 1).map (fun c => normalizeText c.text) ≠ [] ∧
      ∀ l ∈ (header.drop 1).map (fun c => normalizeText c.text),
        ∃ ch ∈ l.data, isDigitCh ch) →
      parseGrid (header :: body) =
        ((orderDays ((header.drop 1).map (fun c => normalizeText c.text))
            (parseBody body).2).1,
         (parseBody body).1,
         (orderDays ((header.drop 1).map (fun c => normalizeText c.text))
            (parseBody body).2).2)) := by
  have hiff : (((header.drop 1).map (fun c => normalizeText c.text)).all isPeriodLabel
      = true) ↔
      ∀ l ∈ (header.drop 1).map (fun c => normalizeText c.text),
        ∃ ch ∈ l.data, isDigitCh ch := by
    rw [List.all_eq_true]
    constructor
    · intro h l hl
      exact List.any_eq_true.mp (h l hl)
    · intro h l hl
      exact List.any_eq_true.mpr (h l hl)
  constructor
  · rintro ⟨hne, hall⟩
    simp only [parseGrid]
    rw [if_pos ⟨hne, hiff.mpr hall⟩]
  · intro hnc
    simp only [parseGrid]
    rw [if_neg (fun hc => hnc ⟨hc.1, hiff.mp hc.2⟩)]

theorem c4_orientation_witness :
    parseGrid [[mkText "x", mkText "1"], [mkText "Mon", mkLines ["a"]]] =
      ((orderDays ((parseBody [[mkText "Mon", mkLines ["a"]]]).1.map normalizeText)
          (pyZip (parseBody [[mkText "Mon", mkLines ["a"]]]).2)).1,
       ([mkText "x", mkText "1"].drop 1).map (fun c => normalizeText c.text),
       (orderDays ((parseBody [[mkText "Mon", mkLines ["a"]]]).1.map normalizeText)
          (pyZip (parseBody [[mkText "Mon", mkLines ["a"]]]).2)).2) :=
  (c4_orientation [mkText "x", mkText "1"] [[mkText "Mon", mkLines ["a"]]]).1 (by decide)

/-! # Claim C7: two-table mode -/

/-- C7 counterexample.  The claim says that on disagreeing axes "the
odd (first) table's day axis wins".  When the first table parses to an
*empty* day axis and the second to a non-empty one, the code
(`parsers.py` line 314, `days = days or second_days`) takes the second
table's axis instead: here the first table yields `([], [], [])`, yet
the built day axis is the second table's `["Даваа"]`. -/
theorem c7_counterexample :
    parseTableStructure tblHeaderOnly = .ok ([], [], []) ∧
    buildWeekMatrices [tblHeaderOnly, tblMonday] none =
      .ok (["Даваа"], ["1"], [], [[entryD]]) := by
  constructor <;> decide

/-- C7 amended: with two or more tables and no inherited global axis,
the first table is parsed as the odd-week matrix and the second as the
even-week matrix, independently (tables beyond the second are ignored);
the day axis and the period axis are each taken from the first table
when it produced a non-empty one and from the second table otherwise
(first non-empty wins for both axes; axes are selected whole, never
merged). -/
theorem c7_two_table_mode (t1 t2 : List (List Tag)) (rest : List (List (List Tag)))
    (d1 p1 d2 p2 : List String) (c1 c2 : List (List Tag))
    (h1 : parseTableStructure t1 = .ok (d1, p1, c1))
    (h2 : parseTableStructure t2 = .ok (d2, p2, c2)) :
    buildWeekMatrices (t1 :: t2 :: rest) none =
      .ok (if d1 = [] then d2 else d1,
           if p1 = [] then p2 else p1,
           c1.map (·.map parseCellContent),
           c2.map (·.map parseCellContent)) := by
  simp only [buildWeekMatrices, h1, h2]
  by_cases hd : d1 = d2 ∧ p1 = p2
  · rw [if_neg (by simp [hd.1, hd.2])]
    rcases hd with ⟨rfl, rfl⟩
    by_cases hd1 : d1 = [] <;> by_cases hp1 : p1 = [] <;> simp [hd1, hp1]
  · have hcond : d1 ≠ d2 ∨ p1 ≠ p2 := by tauto
    rw [if_pos hcond, if_pos hcond]

theorem c7_two_table_mode_witness :
    buildWeekMatrices [tblHeaderOnly, tblMonday, tblHeaderOnly] none =
      .ok (if ([] : List String) = [] then ["Даваа"] else [],
           if ([] : List String) = [] then ["1"] else [],
           List.map (fun r => r.map parseCellContent) ([] : List (List Tag)),
           List.map (fun r => r.map parseCellContent) [[mkLines ["D"]]]) :=
  c7_two_table_mode tblHeaderOnly tblMonday [tblHeaderOnly]
    [] [] ["Даваа"] ["1"] [] [[mkLines ["D"]]] (by decide) (by decide)

/-! # Claim C8: the shared global day axis -/

theorem aggStep_ok (sections : List (String × List (List (List Tag))))
    (st : AggSt) (name : String) (st' : AggSt)
    (h : aggStep sections st name = .ok st') :
    ∃ cd cp om em,
      buildWeekMatrices ((sections.lookup name).getD [])
        (if st.1 = [] then none else some st.1) = .ok (cd, cp, om, em) ∧
      st' = (if cd ≠ [] ∧ st.1 = [] then cd else st.1,
             if cp ≠ [] ∧ st.2.1 = [] then cp else st.2.1,
             st.2.2.1 ++ [(name, om)], st.2.2.2 ++ [(name, em)]) := by
  unfold aggStep at h
  match hb : buildWeekMatrices ((sections.lookup name).getD [])
      (if st.1 = [] then none else some st.1) with
  | .error e => rw [hb] at h; cases h
  | .ok (cd, cp, om, em) =>
      rw [hb] at h
      exact ⟨cd, cp, om, em, rfl, (Except.ok.inj h).symm⟩

theorem fold_days_ne (sections : List (String × List (List (List Tag))))
    (names : List String) : ∀ st st' : AggSt, st.1 ≠ [] →
    names.foldlM (aggStep sections) st = .ok st' → st'.1 = st.1 := by
  induction names with
  | nil => intro st st' _ h; cases h; rfl
  | cons n rest ih =>
      intro st st' hne h
      simp only [List.foldlM] at h
      match hstep : aggStep sections st n with
      | .error e => rw [hstep] at h; cases h
      | .ok st1 =>
          rw [hstep] at h
          rcases aggStep_ok sections st n st1 hstep with ⟨cd, cp, om, em, -, rfl⟩
          have : (if cd ≠ [] ∧ st.1 = [] then cd else st.1) = st.1 :=
            if_neg (fun hc => hne hc.2)
          rw [ih _ _ (by simp only [this]; exact hne) h, this]

theorem fold_days_nil (sections : List (String × List (List (List Tag))))
    (names : List String) : ∀ st st' : AggSt, st.1 = [] →
    names.foldlM (aggStep sections) st = .ok st' →
    st'.1 = ((names.map (specOwnDays sections)).find? (fun d => d ≠ [])).getD [] := by
  induction names with
  | nil => intro st st' hnil h; cases h; simpa using hnil
  | cons n rest ih =>
      intro st st' hnil h
      simp only [List.foldlM] at h
      match hstep : aggStep sections st n with
      | .error e => rw [hstep] at h; cases h
      | .ok st1 =>
          rw [hstep] at h
          rcases aggStep_ok sections st n st1 hstep with ⟨cd, cp, om, em, hb, rfl⟩
          rw [if_pos hnil] at hb
          have hspec : specOwnDays sections n = cd := by
            unfold specOwnDays
            rw [hb]
          by_cases hcd : cd = []
          · have hcond : (if cd ≠ [] ∧ st.1 = [] then cd else st.1) = [] := by
              rw [if_neg (by simp [hcd]), hnil]
            rw [ih _ _ hcond h, List.map_cons, hspec,
              List.find?_cons_of_neg _ (by simp [hcd])]
          · have hcond : (if cd ≠ [] ∧ st.1 = [] then cd else st.1) = cd :=
              if_pos ⟨hcd, hnil⟩
            rw [fold_days_ne sections rest _ _ (by rw [hcond]; exact hcd) h, hcond,
              List.map_cons, hspec, List.find?_cons_of_pos _ (by simp [hcd])]
            rfl

theorem agg_days (sections : List (String × List (List (List Tag))))
    (res : DocData) (h : aggregateSections sections = .ok res) :
    res.days = firstOwnDays sections := by
  unfold aggregateSections at h
  match hf : ((sections.map Prod.fst).insertionSort (fun a b => pyStrLe a b = true)).foldlM
      (aggStep sections) (([], [], [], []) : AggSt) with
  | .error e => rw [hf] at h; cases h
  | .ok st =>
      rw [hf] at h
      cases h
      exact fold_days_nil sections _ _ _ rfl hf

/-- C8 counterexample.  The claim allows an established global axis to
be preferred over a section's freshly parsed axis *only when the fresh
axis is empty*.  On `docTwoAxes`, section `B` freshly parses the
non-empty axis `["Мягмар"]`, yet the loader keeps section `A`'s
`["Даваа"]`: the established axis is preferred even over a non-empty
fresh one. -/
theorem c8_counterexample :
    loadClasses fsTwoAxes = .ok resTwoAxes ∧
    specOwnDays (collectSections docTwoAxes) "B" = ["Мягмар"] ∧
    resTwoAxes.days = ["Даваа"] := by
  refine ⟨by decide, by decide, rfl⟩

/-- C8 amended: across the sections of one document (iterated in
sorted-name order), the document's day axis is the first non-empty
axis a section parses on its own; once established it is passed to
every later section and never replaced — an established non-empty axis
is always preferred over a freshly parsed one, and a fresh axis is
adopted only while no non-empty axis exists yet. -/
theorem c8_first_nonempty_axis (fs : FS) (doc : Doc) (res : DocData) :
    (fs "Classes.html" = some doc → loadClasses fs = .ok res →
        res.days = firstOwnDays (collectSections doc)) ∧
    (fs "Teachers.html" = some doc → loadTeachers fs = .ok res →
        res.days = firstOwnDays (collectSections doc)) := by
  constructor
  · intro hfs h
    rw [loadClasses, loadHtml, hfs] at h
    exact agg_days _ _ h
  · intro hfs h
    rw [loadTeachers, loadHtml, hfs] at h
    exact agg_days _ _ h

theorem c8_first_nonempty_axis_witness :
    loadClasses fsMini = .ok resMini ∧
    resMini.days = firstOwnDays (collectSections docMini) :=
  ⟨by decide,
   (c8_first_nonempty_axis fsMini docMini resMini).1 rfl (by decide)⟩

/-! # Claim C5: day-axis reordering -/

theorem pairwise_fst_lt_enumFrom {α : Type} (n : Nat) (l : List α) :
    List.Pairwise (fun p q : Nat × α => p.1 < q.1) (List.enumFrom n l) := by
  induction l generalizing n with
  | nil => exact .nil
  | cons a rest ih =>
      refine .cons (fun q hq => ?_) (ih (n + 1))
      rcases q with ⟨i, x⟩
      exact (List.mem_enumFrom hq).1

theorem keptPairs_pairwise (rawDays : List String) :
    List.Pairwise (fun p q : Nat × String => p.1 < q.1) (keptPairs rawDays) := by
  unfold keptPairs
  refine List.Pairwise.filterMap _ (fun a a' hlt b hb b' hb' => ?_)
    (pairwise_fst_lt_enumFrom 0 rawDays)
  have hfst : ∀ (p : Nat × String) (q : Nat × String),
      q ∈ (match normalizeDayLabel p.2 with
           | some s => if s = "" then none else some (p.1, s)
           | none => none : Option (Nat × String)) → q.1 = p.1 := by
    intro p q hq
    match hn : normalizeDayLabel p.2 with
    | none =>
        rw [hn] at hq
        simp at hq
    | some s =>
        rw [hn] at hq
        by_cases hs : s = ""
        · simp [hs] at hq
        · simp [hs] at hq
          rw [← hq]
  rw [hfst a b hb, hfst a' b' hb']
  exact hlt

theorem pairwise_fst_lt_inj {l : List (Nat × String)}
    (h : List.Pairwise (fun p q => p.1 < q.1) l)
    {p q : Nat × String} (hp : p ∈ l) (hq : q ∈ l) (hfst : p.1 = q.1) : p = q := by
  induction l with
  | nil => cases hp
  | cons a rest ih =>
      rcases List.pairwise_cons.mp h with ⟨ha, hrest⟩
      rcases List.mem_cons.mp hp with rfl | hp' <;>
        rcases List.mem_cons.mp hq with rfl | hq'
      · rfl
      · exact absurd hfst (Nat.ne_of_lt (ha q hq'))
      · exact absurd hfst.symm (Nat.ne_of_lt (ha p hp'))
      · exact ih hrest hp' hq'

theorem pySortKey_of_mem {p : Nat × String} (h : p.2 ∈ DAY_ORDER) :
    pySortKey p = DAY_ORDER.indexOf p.2 :=
  if_pos (List.elem_iff.mpr h)

theorem pySortKey_of_not_mem {p : Nat × String} (h : p.2 ∉ DAY_ORDER) :
    pySortKey p = DAY_ORDER.length + p.1 :=
  if_neg (fun hc => h (List.elem_iff.mp hc))

theorem keptPairs_sort_sorted (rawDays : List String) :
    List.Pairwise (fun a b : Nat × String => pySortKey a ≤ pySortKey b)
      ((keptPairs rawDays).insertionSort
        (fun a b => pySortKey a ≤ pySortKey b)) :=
  @List.sorted_insertionSort (Nat × String)
    (fun a b => pySortKey a ≤ pySortKey b) (fun a b => Nat.decLe _ _)
    ⟨fun a b => Nat.le_total _ _⟩ ⟨fun a b c hab hbc => Nat.le_trans hab hbc⟩
    (keptPairs rawDays)

/-- C5 counterexample.  The claim says that when no recognised day
occurs, ordering falls back to the original left-to-right order *for
all columns*.  On the header labels `["", "q"]` no recognised day
occurs, yet the ordering keeps only the non-empty column: the
empty-labelled column is dropped (the code's all-columns fallback at
`parsers.py` lines 191–192 fires only when *every* label normalises to
empty). -/
theorem c5_counterexample :
    (∀ p ∈ keptPairs ["", "q"], p.2 ∉ DAY_ORDER) ∧
    orderedPairs ["", "q"] = [(1, "q")] ∧
    orderedPairs ["", "q"] ≠ (["", "q"] : List String).enum ∧
    (orderDays ["", "q"] []).1 = ["q"] := by
  refine ⟨by decide, by decide, by decide, by decide⟩

/-- C5 amended: the pairs `(original index, surviving label)` of a
header are sorted by the key "canonical position for recognised days,
`len(DAY_ORDER)` + original index otherwise": recognised days come
first in canonical order, unrecognised surviving labels after them in
original left-to-right order.  When *nothing* survives normalisation
the ordering falls back to all columns in original order (raw labels,
empty ones included); when no recognised day occurs but some labels
survive, the result is exactly the surviving pairs in original order —
columns whose label normalises to empty are dropped, not retained. -/
theorem c5_day_reordering (rawDays : List String) :
    (keptPairs rawDays = [] → orderedPairs rawDays = rawDays.enum) ∧
    (keptPairs rawDays ≠ [] →
      (orderedPairs rawDays).Perm (keptPairs rawDays) ∧
      (∀ i j (hi : i < (orderedPairs rawDays).length)
          (hj : j < (orderedPairs rawDays).length), i < j →
        pySortKey (orderedPairs rawDays)[i] ≤ pySortKey (orderedPairs rawDays)[j]) ∧
      (∀ i j (hi : i < (orderedPairs rawDays).length)
          (hj : j < (orderedPairs rawDays).length), i < j →
        ((orderedPairs rawDays)[i].2 ∈ DAY_ORDER →
          (orderedPairs rawDays)[j].2 ∈ DAY_ORDER →
          DAY_ORDER.indexOf (orderedPairs rawDays)[i].2 ≤
            DAY_ORDER.indexOf (orderedPairs rawDays)[j].2) ∧
        ((orderedPairs rawDays)[i].2 ∉ DAY_ORDER →
          (orderedPairs rawDays)[j].2 ∉ DAY_ORDER) ∧
        ((orderedPairs rawDays)[i].2 ∉ DAY_ORDER →
          (orderedPairs rawDays)[j].2 ∉ DAY_ORDER →
          (orderedPairs rawDays)[i].1 < (orderedPairs rawDays)[j].1)) ∧
      ((∀ p ∈ keptPairs rawDays, p.2 ∉ DAY_ORDER) →
        orderedPairs rawDays = keptPairs rawDays)) := by
  have hperm0 := List.perm_insertionSort
    (fun a b : Nat × String => pySortKey a ≤ pySortKey b) (keptPairs rawDays)
  constructor
  · intro hk
    unfold orderedPairs
    rw [hk]
    rfl
  · intro hk
    have hsne : (keptPairs rawDays).insertionSort
        (fun a b => pySortKey a ≤ pySortKey b) ≠ [] := by
      intro h0
      exact hk ((h0 ▸ hperm0).symm.eq_nil)
    have hop : orderedPairs rawDays = (keptPairs rawDays).insertionSort
        (fun a b => pySortKey a ≤ pySortKey b) := by
      unfold orderedPairs
      rw [if_neg hsne]
    have hperm : (orderedPairs rawDays).Perm (keptPairs rawDays) := by
      rw [hop]; exact hperm0
    have hpw : List.Pairwise
        (fun a b : Nat × String => pySortKey a ≤ pySortKey b) (orderedPairs rawDays) := by
      rw [hop]
      exact keptPairs_sort_sorted rawDays
    have hsorted : ∀ i j (hi : i < (orderedPairs rawDays).length)
        (hj : j < (orderedPairs rawDays).length), i < j →
        pySortKey (orderedPairs rawDays)[i] ≤ pySortKey (orderedPairs rawDays)[j] :=
      fun i j hi hj hij => (List.pairwise_iff_getElem.mp hpw) i j hi hj hij
    have hmem : ∀ i (hi : i < (orderedPairs rawDays).length),
        (orderedPairs rawDays)[i] ∈ keptPairs rawDays := fun i hi =>
      hperm.mem_iff.mp (List.getElem_mem hi)
    have hnodup : (orderedPairs rawDays).Nodup := by
      refine (hperm.symm).nodup ?_
      exact ((keptPairs_pairwise rawDays).imp (fun h => Nat.ne_of_lt h ∘ congrArg Prod.fst))
    refine ⟨hperm, hsorted, fun i j hi hj hij => ⟨?_, ?_, ?_⟩, ?_⟩
    · intro hri hrj
      have := hsorted i j hi hj hij
      rwa [pySortKey_of_mem hri, pySortKey_of_mem hrj] at this
    · intro hui hrj
      have hkey := hsorted i j hi hj hij
      rw [pySortKey_of_not_mem hui, pySortKey_of_mem hrj] at hkey
      have hlt : DAY_ORDER.indexOf (orderedPairs rawDays)[j].2 < DAY_ORDER.length :=
        List.indexOf_lt_length.mpr hrj
      simp only [show DAY_ORDER.length = 7 from rfl] at hkey hlt
      omega
    · intro hui huj
      have hkey := hsorted i j hi hj hij
      rw [pySortKey_of_not_mem hui, pySortKey_of_not_mem huj] at hkey
      have hle : (orderedPairs rawDays)[i].1 ≤ (orderedPairs rawDays)[j].1 := by omega
      rcases Nat.lt_or_ge (orderedPairs rawDays)[i].1 (orderedPairs rawDays)[j].1 with h | h
      · exact h
      · have heq : (orderedPairs rawDays)[i].1 = (orderedPairs rawDays)[j].1 := by omega
        have := pairwise_fst_lt_inj (keptPairs_pairwise rawDays)
          (hmem i hi) (hmem j hj) heq
        exact absurd (hnodup.getElem_inj_iff.mp this) (Nat.ne_of_lt hij)
    · intro hall
      rw [hop]
      refine List.Sorted.insertionSort_eq ?_
      refine List.Pairwise.imp_of_mem (fun {a b} ha hb hlt => ?_) (keptPairs_pairwise rawDays)
      rw [pySortKey_of_not_mem (hall a ha), pySortKey_of_not_mem (hall b hb)]
      omega

theorem c5_day_reordering_witness :
    orderedPairs [" "] = ([" "] : List String).enum ∧
    (orderedPairs ["Мягмар", "x"]).Perm (keptPairs ["Мягмар", "x"]) :=
  ⟨(c5_day_reordering [" "]).1 (by decide),
   (((c5_day_reordering ["Мягмар", "x"]).2 (by decide))).1⟩

/-! # Claim C1: matrix dimensions -/

theorem lookup_cons_self {β : Type} (k : String) (v : β) (l : List (String × β)) :
    List.lookup k ((k, v) :: l) = some v := by
  simp [List.lookup_cons]

theorem lookup_cons_ne {β : Type} {k a : String} (v : β) (l : List (String × β))
    (h : k ≠ a) : List.lookup k ((a, v) :: l) = List.lookup k l := by
  have hb : (k == a) = false := beq_eq_false_iff_ne.mpr h
  simp [List.lookup_cons, hb]

theorem lookup_append_of_some {β : Type} {k : String} {l1 l2 : List (String × β)}
    {v : β} (h : List.lookup k l1 = some v) :
    List.lookup k (l1 ++ l2) = some v := by
  induction l1 with
  | nil => cases h
  | cons a t ih =>
      rcases a with ⟨a1, a2⟩
      by_cases hk : k = a1
      · subst hk
        rw [lookup_cons_self] at h
        rw [List.cons_append, lookup_cons_self]
        exact h
      · rw [lookup_cons_ne _ _ hk] at h
        rw [List.cons_append, lookup_cons_ne _ _ hk]
        exact ih h

theorem lookup_append_of_none {β : Type} {k : String} {l1 : List (String × β)}
    (l2 : List (String × β)) (h : List.lookup k l1 = none) :
    List.lookup k (l1 ++ l2) = List.lookup k l2 := by
  induction l1 with
  | nil => rfl
  | cons a t ih =>
      rcases a with ⟨a1, a2⟩
      by_cases hk : k = a1
      · subst hk
        rw [lookup_cons_self] at h
        cases h
      · rw [lookup_cons_ne _ _ hk] at h
        rw [List.cons_append, lookup_cons_ne _ _ hk]
        exact ih h

theorem mem_keys_of_lookup {β : Type} {k : String} {l : List (String × β)} {v : β}
    (h : List.lookup k l = some v) : k ∈ l.map Prod.fst := by
  induction l with
  | nil => cases h
  | cons a t ih =>
      rcases a with ⟨a1, a2⟩
      by_cases hk : k = a1
      · subst hk
        simp
      · rw [lookup_cons_ne _ _ hk] at h
        simp [ih h]

theorem lookup_eq_none_of_not_mem {β : Type} {k : String} {l : List (String × β)}
    (h : k ∉ l.map Prod.fst) : List.lookup k l = none := by
  match hl : List.lookup k l with
  | none => rfl
  | some v => exact absurd (mem_keys_of_lookup hl) h

theorem upsert_keys {β : Type} (acc : List (String × β)) (k : String) (v : β) :
    (upsert acc k v).map Prod.fst =
      if (acc.lookup k).isSome then acc.map Prod.fst
      else acc.map Prod.fst ++ [k] := by
  unfold upsert
  by_cases h : (acc.lookup k).isSome
  · rw [if_pos h, if_pos h, List.map_map]
    refine List.map_congr_left (fun p _ => ?_)
    by_cases hp : p.1 = k
    · simp [hp]
    · simp [hp]
  · rw [if_neg h, if_neg h]
    simp

theorem lookup_isSome_of_mem_keys {β : Type} {k : String} {l : List (String × β)}
    (h : k ∈ l.map Prod.fst) : (List.lookup k l).isSome = true := by
  induction l with
  | nil => simp at h
  | cons a t ih =>
      rcases a with ⟨a1, a2⟩
      by_cases hk : k = a1
      · subst hk
        rw [lookup_cons_self]
        rfl
      · rw [lookup_cons_ne _ _ hk]
        apply ih
        rw [List.map_cons] at h
        rcases List.mem_cons.mp h with h' | h'
        · exact absurd h' hk
        · exact h'

theorem upsert_keys_nodup {β : Type} (acc : List (String × β)) (k : String) (v : β)
    (h : (acc.map Prod.fst).Nodup) : ((upsert acc k v).map Prod.fst).Nodup := by
  rw [upsert_keys]
  by_cases hs : (acc.lookup k).isSome
  · rw [if_pos hs]
    exact h
  · rw [if_neg hs]
    have hk : k ∉ acc.map Prod.fst := fun hmem => hs (lookup_isSome_of_mem_keys hmem)
    simp [List.nodup_append, hk, h]

theorem collectSectionsAux_nodup (doc : Doc) :
    ∀ acc : List (String × List (List (List Tag))),
    (acc.map Prod.fst).Nodup → ((collectSectionsAux doc acc).map Prod.fst).Nodup := by
  induction doc with
  | nil => exact fun acc h => h
  | cons node rest ih =>
      intro acc hacc
      match node with
      | .heading txt =>
          show ((collectSectionsAux (Node.heading txt :: rest) acc).map Prod.fst).Nodup
          unfold collectSectionsAux
          by_cases ht : normalizeText txt = ""
          · rw [if_pos ht]
            exact ih acc hacc
          · rw [if_neg ht]
            by_cases hts : tablesAfter rest = []
            · rw [if_pos hts]
              exact ih acc hacc
            · rw [if_neg hts]
              exact ih _ (upsert_keys_nodup _ _ _ hacc)
      | .table t => exact ih acc hacc
      | .other => exact ih acc hacc

theorem fold_weeks_ext (sections : List (String × List (List (List Tag))))
    (names : List String) : ∀ st st' : AggSt,
    names.foldlM (aggStep sections) st = .ok st' →
    ∃ ext1 ext2, st'.2.2.1 = st.2.2.1 ++ ext1 ∧ st'.2.2.2 = st.2.2.2 ++ ext2 ∧
      (∀ p ∈ ext1, p.1 ∈ names) ∧ (∀ p ∈ ext2, p.1 ∈ names) := by
  induction names with
  | nil =>
      intro st st' h
      cases h
      exact ⟨[], [], by simp, by simp, by simp, by simp⟩
  | cons n rest ih =>
      intro st st' h
      simp only [List.foldlM] at h
      match hstep : aggStep sections st n with
      | .error e => rw [hstep] at h; cases h
      | .ok st1 =>
          rw [hstep] at h
          rcases aggStep_ok sections st n st1 hstep with ⟨cd, cp, om, em, -, rfl⟩
          rcases ih _ _ h with ⟨ext1, ext2, h1, h2, hm1, hm2⟩
          refine ⟨(n, om) :: ext1, (n, em) :: ext2, ?_, ?_, ?_, ?_⟩
          · rw [h1]; simp
          · rw [h2]; simp
          · intro p hp
            rcases List.mem_cons.mp hp with rfl | hp'
            · simp
            · simp [hm1 p hp']
          · intro p hp
            rcases List.mem_cons.mp hp with rfl | hp'
            · simp
            · simp [hm2 p hp']

theorem fold_lookup (sections : List (String × List (List (List Tag))))
    (names : List String) (hnd : names.Nodup) : ∀ st st' : AggSt,
    names.foldlM (aggStep sections) st = .ok st' →
    ∀ name ∈ names, st.2.2.1.lookup name = none → st.2.2.2.lookup name = none →
    ∃ g om em d p,
      buildWeekMatrices ((sections.lookup name).getD []) g = .ok (d, p, om, em) ∧
      st'.2.2.1.lookup name = some om ∧ st'.2.2.2.lookup name = some em := by
  induction names with
  | nil =>
      intro st st' h name hmem
      cases hmem
  | cons n rest ih =>
      intro st st' h name hmem ho he
      simp only [List.foldlM] at h
      match hstep : aggStep sections st n with
      | .error e => rw [hstep] at h; cases h
      | .ok st1 =>
          rw [hstep] at h
          rcases aggStep_ok sections st n st1 hstep with ⟨cd, cp, om, em, hb, rfl⟩
          rcases List.pairwise_cons.mp hnd with ⟨hn, hrest⟩
          rcases List.mem_cons.mp hmem with rfl | hmem'
          · rcases fold_weeks_ext sections rest _ _ h with ⟨ext1, ext2, h1, h2, hm1, hm2⟩
            refine ⟨(if st.1 = [] then none else some st.1), om, em, cd, cp, hb, ?_, ?_⟩
            · rw [h1]
              exact lookup_append_of_some
                (by rw [lookup_append_of_none _ ho]; exact lookup_cons_self _ _ _)
            · rw [h2]
              exact lookup_append_of_some
                (by rw [lookup_append_of_none _ he]; exact lookup_cons_self _ _ _)
          · have hneq : name ≠ n := fun heq => (hn name hmem') heq.symm
            refine ih hrest _ _ h name hmem' ?_ ?_
            · show List.lookup name (st.2.2.1 ++ [(n, om)]) = none
              rw [lookup_append_of_none _ ho, lookup_cons_ne _ _ hneq]
              rfl
            · show List.lookup name (st.2.2.2 ++ [(n, em)]) = none
              rw [lookup_append_of_none _ he, lookup_cons_ne _ _ hneq]
              rfl

theorem build_indep (ts : List (List (List Tag))) (g : Option (List String))
    (d p : List String) (om em : Matrix)
    (h : buildWeekMatrices ts g = .ok (d, p, om, em)) :
    ∃ d' p', buildWeekMatrices ts none = .ok (d', p', om, em) := by
  match ts with
  | [] =>
      have h' : ((g.getD [], [], [], []) :
          List String × List String × Matrix × Matrix) = (d, p, om, em) :=
        Except.ok.inj h
      have hom : ([] : Matrix) = om := congrArg (fun q => q.2.2.1) h'
      have hem : ([] : Matrix) = em := congrArg (fun q => q.2.2.2) h'
      exact ⟨[], [], by rw [← hom, ← hem]; rfl⟩
  | [t] =>
      exact ⟨d, p, h⟩
  | t1 :: t2 :: rest =>
      simp only [buildWeekMatrices] at h ⊢
      match h1 : parseTableStructure t1 with
      | .error e => rw [h1] at h; simp at h
      | .ok (d1, p1, c1) =>
          match h2 : parseTableStructure t2 with
          | .error e => rw [h1, h2] at h; simp at h
          | .ok (d2, p2, c2) =>
              rw [h1, h2] at h
              have h' := Except.ok.inj h
              have hom : c1.map (fun x => x.map parseCellContent) = om :=
                congrArg (fun q => q.2.2.1) h'
              have hem : c2.map (fun x => x.map parseCellContent) = em :=
                congrArg (fun q => q.2.2.2) h'
              refine ⟨(if d1 ≠ d2 ∨ p1 ≠ p2 then (if d1 = [] then d2 else d1) else d1),
                (if d1 ≠ d2 ∨ p1 ≠ p2 then (if p1 = [] then p2 else p1) else p1), ?_⟩
              rw [← hom, ← hem]

theorem build_single (t : List (List Tag)) (g : Option (List String))
    (d p : List String) (om em : Matrix)
    (h : buildWeekMatrices [t] g = .ok (d, p, om, em)) :
    ∃ cg, parseTableStructure t = .ok (d, p, cg) ∧
      om = cg.map (fun row => row.map (fun cell =>
        ((splitCellByWeek cell).odd).getD (parseEntryLines []))) ∧
      em = cg.map (fun row => row.map (fun cell =>
        ((splitCellByWeek cell).even).getD
          (((splitCellByWeek cell).odd).getD (parseEntryLines [])))) := by
  simp only [buildWeekMatrices] at h
  match hp : parseTableStructure t with
  | .error e => rw [hp] at h; simp at h
  | .ok (dd, pp, cg) =>
      rw [hp] at h
      have h' := Except.ok.inj h
      have hd : dd = d := congrArg (fun q => q.1) h'
      have hp2 : pp = p := congrArg (fun q => q.2.1) h'
      have hom : cg.map (fun row => row.map (fun cell =>
          ((splitCellByWeek cell).odd).getD (parseEntryLines []))) = om :=
        congrArg (fun q => q.2.2.1) h'
      have hem : cg.map (fun row => row.map (fun cell =>
          ((splitCellByWeek cell).even).getD
            (((splitCellByWeek cell).odd).getD (parseEntryLines [])))) = em :=
        congrArg (fun q => q.2.2.2) h'
      refine ⟨cg, ?_, hom.symm, hem.symm⟩
      rw [hd, hp2]

theorem orderDays_row_le (rawDays : List String) (matrixCells : List (List Tag)) :
    ∀ row ∈ (orderDays rawDays matrixCells).2,
      row.length ≤ (orderDays rawDays matrixCells).1.length := by
  intro row hrow
  unfold orderDays at hrow ⊢
  rcases List.mem_map.mp hrow with ⟨r, -, rfl⟩
  calc ((orderedPairs rawDays).filterMap (fun p => r[p.1]?)).length
      ≤ (orderedPairs rawDays).length := List.length_filterMap_le _ _
    _ = ((orderedPairs rawDays).map (·.2)).length := (List.length_map _ _).symm

theorem parseGrid_row_le (grid : List (List Tag)) :
    ∀ row ∈ (parseGrid grid).2.2, row.length ≤ (parseGrid grid).1.length := by
  match grid with
  | [] =>
      intro row hrow
      simp [parseGrid] at hrow
  | header :: body =>
      simp only [parseGrid]
      by_cases hc : ((header.drop 1).map (fun c => normalizeText c.text) ≠ [] ∧
          ((header.drop 1).map (fun c => normalizeText c.text)).all isPeriodLabel)
      · rw [if_pos hc]
        exact orderDays_row_le _ _
      · rw [if_neg hc]
        exact orderDays_row_le _ _

theorem parse_structure_inv (t : List (List Tag)) (d p : List String)
    (cg : List (List Tag)) (h : parseTableStructure t = .ok (d, p, cg)) :
    ∃ grid, expandTable t = .ok grid ∧ parseGrid grid = (d, p, cg) := by
  unfold parseTableStructure at h
  match hx : expandTable t with
  | .error e => rw [hx] at h; cases h
  | .ok grid =>
      rw [hx] at h
      exact ⟨grid, rfl, Except.ok.inj h⟩

/-- C1 counterexample.  On `docRagged`, section `A` has one table whose
body row is shorter than its two-day header: the loaded `odd_week["A"]`
is a 1 × 1 matrix although `len(periods) × len(days)` is 1 × 2 — a
day-column position is absent, not an empty Entry.  Section `B`
publishes two tables with different body row counts: its odd matrix has
1 row while its even matrix has 2, so the two matrices do not even have
identical dimensions. -/
theorem c1_counterexample :
    loadClasses fsRagged = .ok resRagged ∧
    resRagged.periods.length = 1 ∧ resRagged.days.length = 2 ∧
    resRagged.odd_week.lookup "A" = some [[soleEntry "Math"]] ∧
    ([[soleEntry "Math"]] : Matrix).length = 1 ∧
    (([[soleEntry "Math"]] : Matrix).getD 0 []).length = 1 ∧
    (resRagged.odd_week.lookup "B").map List.length = some 1 ∧
    (resRagged.even_week.lookup "B").map List.length = some 2 := by
  refine ⟨by decide, rfl, rfl, by decide, rfl, rfl, by decide, by decide⟩

/-- C1 amended: for every loaded document and every section whose
heading is followed by exactly one table (single-table mode), the
odd-week and the even-week matrices have identical dimensions — the
same number of rows, and each pair of corresponding rows has the same
length — with every held position one `CellInfo` value; each row's
length is bounded by (but may fall short of) the length of that
section's own parsed day axis.  (In two-table mode the two matrices
come from two different tables and need not agree, and the document's
global `periods`/`days` need not match a section's dimensions.) -/
theorem c1_single_table_dims (fs : FS) (doc : Doc) (res : DocData)
    (name : String) (t : List (List Tag))
    (hfs : fs "Classes.html" = some doc)
    (hload : loadClasses fs = .ok res)
    (hsec : (collectSections doc).lookup name = some [t]) :
    ∃ M M', res.odd_week.lookup name = some M ∧
      res.even_week.lookup name = some M' ∧
      M.length = M'.length ∧
      (∀ i : Nat, (M[i]?).map List.length = (M'[i]?).map List.length) ∧
      ∃ d p, buildWeekMatrices [t] none = .ok (d, p, M, M') ∧
        (∀ row ∈ M, row.length ≤ d.length) ∧
        (∀ row ∈ M', row.length ≤ d.length) := by
  simp only [loadClasses, loadHtml, hfs] at hload
  simp only [aggregateSections] at hload
  match hf : (((collectSections doc).map Prod.fst).insertionSort
      (fun a b => pyStrLe a b = true)).foldlM (aggStep (collectSections doc))
      (([], [], [], []) : AggSt) with
  | .error e => rw [hf] at hload; cases hload
  | .ok st =>
      rw [hf] at hload
      cases hload
      have hnd : (((collectSections doc).map Prod.fst).insertionSort
          (fun a b => pyStrLe a b = true)).Nodup := by
        refine (List.perm_insertionSort _ _).symm.nodup ?_
        exact collectSectionsAux_nodup doc [] (by simp)
      have hmemn : name ∈ ((collectSections doc).map Prod.fst).insertionSort
          (fun a b => pyStrLe a b = true) :=
        (List.perm_insertionSort _ _).mem_iff.mpr (mem_keys_of_lookup hsec)
      rcases fold_lookup (collectSections doc) _ hnd _ _ hf name hmemn rfl rfl
        with ⟨g, om, em, d0, p0, hb, hlo, hle⟩
      rw [hsec] at hb
      rcases build_indep [t] g d0 p0 om em hb with ⟨d, p, hb'⟩
      rcases build_single t none d p om em hb' with ⟨cg, hparse, hom, hem⟩
      refine ⟨om, em, hlo, hle, ?_, ?_, d, p, hb', ?_, ?_⟩
      · rw [hom, hem]
        simp
      · intro i
        rw [hom, hem, List.getElem?_map, List.getElem?_map, Option.map_map,
          Option.map_map]
        rcases hcg : cg[i]? with _ | row
        · simp
        · simp
      · rcases parse_structure_inv t d p cg hparse with ⟨grid, -, hpg⟩
        intro row hrow
        rw [hom] at hrow
        rcases List.mem_map.mp hrow with ⟨r, hr, rfl⟩
        calc (r.map _).length = r.length := List.length_map _ _
          _ ≤ d.length := by
              have hb := parseGrid_row_le grid r (by rw [hpg]; exact hr)
              rwa [hpg] at hb
      · rcases parse_structure_inv t d p cg hparse with ⟨grid, -, hpg⟩
        intro row hrow
        rw [hem] at hrow
        rcases List.mem_map.mp hrow with ⟨r, hr, rfl⟩
        calc (r.map _).length = r.length := List.length_map _ _
          _ ≤ d.length := by
              have hb := parseGrid_row_le grid r (by rw [hpg]; exact hr)
              rwa [hpg] at hb

theorem c1_single_table_dims_witness :
    ∃ M M', resMini.odd_week.lookup "A" = some M ∧
      resMini.even_week.lookup "A" = some M' ∧
      M.length = M'.length ∧
      (∀ i : Nat, (M[i]?).map List.length = (M'[i]?).map List.length) ∧
      ∃ d p, buildWeekMatrices [tblMonday] none = .ok (d, p, M, M') ∧
        (∀ row ∈ M, row.length ≤ d.length) ∧
        (∀ row ∈ M', row.length ≤ d.length) :=
  c1_single_table_dims fsMini docMini resMini "A" tblMonday rfl (by decide) (by decide)

/-! # Claim C2: span coverage in the expanded grid -/

/-- C2 counterexample.  First conjunct: a `rowspan="2"` cell in a
one-row table is placed at `(0,0)`, but the expanded grid has a single
row, so the claimed position `(1,0)` does not exist at all.  Remaining
conjuncts: in `tblSkip`, `cellB2` (`rowspan="2"`) is placed at `(0,1)`,
but the `colspan="2"` cell `cellD2` of row 1 is written across columns
0–1 without consulting the pending span, so position `(1,1)` holds
`cellD2` — not `cellB2`, which only reappears one row late at
`(2,1)`. -/
theorem c2_counterexample :
    expandTable [[cellRowTwo]] = .ok [[cellRowTwo]] ∧
    ([[cellRowTwo]] : List (List Tag)).length = 1 ∧
    expandTable tblSkip = .ok [[cellA, cellB2], [cellD2, cellD2], [cellE, cellB2]] ∧
    cellD2 ≠ cellB2 := by
  refine ⟨by decide, rfl, by decide, by decide⟩

theorem lookupS_cons_self (c : Nat) (v : Tag × Int) (l : SpanMap) :
    lookupS ((c, v) :: l) c = some v := by
  simp [lookupS, List.lookup_cons]

theorem lookupS_cons_ne {x c : Nat} (v : Tag × Int) (l : SpanMap) (h : x ≠ c) :
    lookupS ((c, v) :: l) x = lookupS l x := by
  have hb : (x == c) = false := beq_eq_false_iff_ne.mpr h
  simp [lookupS, List.lookup_cons, hb]

theorem lookupS_eraseS (m : SpanMap) (c x : Nat) :
    lookupS (eraseS m c) x = if x = c then none else lookupS m x := by
  induction m with
  | nil => by_cases hx : x = c <;> simp [eraseS, lookupS, hx]
  | cons e t ih =>
      rcases e with ⟨k, v⟩
      by_cases hk : k = c
      · subst hk
        have : eraseS ((k, v) :: t) k = eraseS t k := by simp [eraseS]
        rw [this, ih]
        by_cases hx : x = k
        · simp [hx]
        · simp [hx, lookupS_cons_ne v t hx]
      · have : eraseS ((k, v) :: t) c = (k, v) :: eraseS t c := by simp [eraseS, hk]
        rw [this]
        by_cases hx : x = k
        · subst hx
          rw [lookupS_cons_self, lookupS_cons_self]
          rw [if_neg hk]
        · rw [lookupS_cons_ne v _ hx, lookupS_cons_ne v _ hx, ih]

theorem lookupS_append_none {m1 : SpanMap} (m2 : SpanMap) {x : Nat}
    (h : lookupS m1 x = none) : lookupS (m1 ++ m2) x = lookupS m2 x := by
  induction m1 with
  | nil => rfl
  | cons e t ih =>
      rcases e with ⟨k, v⟩
      by_cases hx : x = k
      · subst hx
        rw [lookupS_cons_self] at h
        cases h
      · rw [lookupS_cons_ne v t hx] at h
        rw [List.cons_append, lookupS_cons_ne v _ hx]
        exact ih h

theorem lookupS_append_some {m1 : SpanMap} (m2 : SpanMap) {x : Nat}
    {v : Tag × Int} (h : lookupS m1 x = some v) :
    lookupS (m1 ++ m2) x = some v := by
  induction m1 with
  | nil => cases h
  | cons e t ih =>
      rcases e with ⟨k, w⟩
      by_cases hx : x = k
      · subst hx
        rw [lookupS_cons_self] at h
        rw [List.cons_append, lookupS_cons_self]
        exact h
      · rw [lookupS_cons_ne w t hx] at h
        rw [List.cons_append, lookupS_cons_ne w _ hx]
        exact ih h

theorem lookupS_insertS (m : SpanMap) (c : Nat) (v : Tag × Int) (x : Nat) :
    lookupS (insertS m c v) x = if x = c then some v else lookupS m x := by
  unfold insertS
  by_cases hx : x = c
  · subst hx
    rw [lookupS_append_none _ (by rw [lookupS_eraseS]; simp), lookupS_cons_self,
      if_pos rfl]
  · rw [if_neg hx]
    have he : lookupS (eraseS m c) x = lookupS m x := by
      rw [lookupS_eraseS, if_neg hx]
    match hm : lookupS (eraseS m c) x with
    | some w => rw [lookupS_append_some _ hm, ← hm, he]
    | none =>
        rw [lookupS_append_none _ hm, lookupS_cons_ne _ _ hx, ← he, hm]
        rfl

theorem mem_of_lookupS {m : SpanMap} {c : Nat} {v : Tag × Int}
    (h : lookupS m c = some v) : (c, v) ∈ m := by
  induction m with
  | nil => cases h
  | cons e t ih =>
      rcases e with ⟨k, w⟩
      by_cases hx : c = k
      · subst hx
        rw [lookupS_cons_self] at h
        rw [Option.some.injEq] at h
        subst h
        exact List.mem_cons_self _ _
      · rw [lookupS_cons_ne w t hx] at h
        exact List.mem_cons_of_mem _ (ih h)

theorem filter_mono_length {α : Type} (p q : α → Bool)
    (hpq : ∀ a, p a = true → q a = true) (l : List α) :
    (l.filter p).length ≤ (l.filter q).length := by
  induction l with
  | nil => exact Nat.le_refl _
  | cons a t ih =>
      by_cases hp : p a = true
      · rw [List.filter_cons_of_pos hp, List.filter_cons_of_pos (hpq a hp)]
        exact Nat.succ_le_succ ih
      · rw [List.filter_cons_of_neg (by simpa using hp)]
        by_cases hq : q a = true
        · rw [List.filter_cons_of_pos hq]
          exact Nat.le_succ_of_le ih
        · rw [List.filter_cons_of_neg (by simpa using hq)]
          exact ih

theorem filter_succ_lt {l : List (Nat × Tag × Int)} {c : Nat} {v : Tag × Int}
    (hmem : (c, v) ∈ l) :
    (l.filter (fun e => decide (c + 1 ≤ e.1))).length <
    (l.filter (fun e => decide (c ≤ e.1))).length := by
  induction l with
  | nil => cases hmem
  | cons e t ih =>
      rcases List.mem_cons.mp hmem with heq | hmem'
      · subst heq
        simp only [List.filter_cons]
        rw [if_neg (by simp), if_pos (by simp)]
        exact Nat.lt_succ_of_le (filter_mono_length _ _ (fun a ha => by
          simp only [decide_eq_true_eq] at ha ⊢
          omega) t)
      · have ht := ih hmem'
        simp only [List.filter_cons]
        by_cases h1 : c + 1 ≤ e.1
        · rw [if_pos (by simpa using h1),
            if_pos (by simp only [decide_eq_true_eq]; omega)]
          simpa using Nat.succ_lt_succ ht
        · rw [if_neg (by simpa using h1)]
          by_cases h2 : c ≤ e.1
          · rw [if_pos (by simpa using h2)]
            exact Nat.lt_succ_of_lt ht
          · rw [if_neg (by simpa using h2)]
            exact ht

theorem keysGe_strict {m : SpanMap} {c : Nat} {v : Tag × Int}
    (h : lookupS m c = some v) : keysGe m (c + 1) < keysGe m c := by
  unfold keysGe
  exact filter_succ_lt (mem_of_lookupS h)

theorem keysGe_eraseS_succ (m : SpanMap) (c : Nat) :
    keysGe (eraseS m c) (c + 1) = keysGe m (c + 1) := by
  unfold keysGe eraseS
  rw [List.filter_filter]
  refine congrArg List.length (List.filter_congr (fun e _ => ?_))
  by_cases h : c + 1 ≤ e.1
  · have : e.1 ≠ c := by omega
    simp [h, this]
  · simp [h]

theorem keysGe_insertS_succ (m : SpanMap) (c : Nat) (v : Tag × Int) :
    keysGe (insertS m c v) (c + 1) = keysGe m (c + 1) := by
  unfold keysGe insertS
  rw [List.filter_append]
  have h1 : List.filter (fun e => decide (c + 1 ≤ e.1)) [(c, v)] = [] := by
    simp
  rw [h1, List.append_nil]
  exact keysGe_eraseS_succ m c

theorem keysGe_drainStep_succ (m : SpanMap) (c : Nat) (cell : Tag) (rem : Int) :
    keysGe (drainStep m c cell rem) (c + 1) = keysGe m (c + 1) := by
  unfold drainStep
  by_cases h : rem - 1 = 0
  · rw [if_pos h, keysGe_eraseS_succ]
  · rw [if_neg h, keysGe_insertS_succ]

theorem drainF_congr (n : Nat) : ∀ (m : SpanMap) (c f1 f2 : Nat),
    keysGe m c ≤ n → keysGe m c < f1 → keysGe m c < f2 →
    drainF f1 m c = drainF f2 m c := by
  induction n with
  | zero =>
      intro m c f1 f2 hn h1 h2
      match f1, f2 with
      | 0, _ => exact absurd h1 (Nat.not_lt_zero _)
      | _ + 1, 0 => exact absurd h2 (Nat.not_lt_zero _)
      | f1 + 1, f2 + 1 =>
          match hl : lookupS m c with
          | none => simp only [drainF, hl]
          | some (cell, rem) =>
              have := keysGe_strict hl
              omega
  | succ n ih =>
      intro m c f1 f2 hn h1 h2
      match f1, f2 with
      | 0, _ => exact absurd h1 (Nat.not_lt_zero _)
      | _ + 1, 0 => exact absurd h2 (Nat.not_lt_zero _)
      | f1 + 1, f2 + 1 =>
          match hl : lookupS m c with
          | none => simp only [drainF, hl]
          | some (cell, rem) =>
              simp only [drainF, hl]
              have hlt : keysGe (drainStep m c cell rem) (c + 1) < keysGe m c := by
                rw [keysGe_drainStep_succ]
                exact keysGe_strict hl
              have hrec : drainF f1 (drainStep m c cell rem) (c + 1) =
                  drainF f2 (drainStep m c cell rem) (c + 1) :=
                ih _ _ _ _ (by omega) (by omega) (by omega)
              show (_ :: (drainF f1 (drainStep m c cell rem) (c + 1)).1, _) = _
              rw [hrec]

theorem drain_none {m : SpanMap} {c : Nat} (h : lookupS m c = none) :
    drain m c = ([], m, c) := by
  unfold drain
  simp only [drainF, h]

theorem drain_some {m : SpanMap} {c : Nat} {cell : Tag} {rem : Int}
    (h : lookupS m c = some (cell, rem)) :
    drain m c = (cell :: (drain (drainStep m c cell rem) (c + 1)).1,
      (drain (drainStep m c cell rem) (c + 1)).2.1,
      (drain (drainStep m c cell rem) (c + 1)).2.2) := by
  have hlt : keysGe (drainStep m c cell rem) (c + 1) < keysGe m c := by
    rw [keysGe_drainStep_succ]
    exact keysGe_strict h
  show drainF (keysGe m c + 1) m c = _
  simp only [drainF, h]
  rw [show drainF (keysGe m c) (drainStep m c cell rem) (c + 1) =
      drain (drainStep m c cell rem) (c + 1) from
    drainF_congr (keysGe (drainStep m c cell rem) (c + 1)) _ _ _ _
      (Nat.le_refl _) (by omega) (Nat.lt_succ_self _)]

theorem lookupS_drainStep_ne (m : SpanMap) (c : Nat) (cell : Tag) (rem : Int)
    {x : Nat} (h : x ≠ c) :
    lookupS (drainStep m c cell rem) x = lookupS m x := by
  unfold drainStep
  by_cases h1 : rem - 1 = 0
  · rw [if_pos h1, lookupS_eraseS, if_neg h]
  · rw [if_neg h1, lookupS_insertS, if_neg h]

theorem lookupS_drainStep_self (m : SpanMap) (c : Nat) (cell : Tag) (rem : Int) :
    lookupS (drainStep m c cell rem) c =
      if rem - 1 = 0 then none else some (cell, rem - 1) := by
  unfold drainStep
  by_cases h1 : rem - 1 = 0
  · rw [if_pos h1, if_pos h1, lookupS_eraseS, if_pos rfl]
  · rw [if_neg h1, if_neg h1, lookupS_insertS, if_pos rfl]

theorem drain_csr_aux (n : Nat) : ∀ (m : SpanMap) (c : Nat), keysGe m c ≤ n →
    (drain m c).2.2 = c + (drain m c).1.length := by
  induction n with
  | zero =>
      intro m c hn
      match hl : lookupS m c with
      | none => rw [drain_none hl]; simp
      | some (cell, rem) =>
          have := keysGe_strict hl
          omega
  | succ n ih =>
      intro m c hn
      match hl : lookupS m c with
      | none => rw [drain_none hl]; simp
      | some (cell, rem) =>
          rw [drain_some hl]
          have h2 := ih (drainStep m c cell rem) (c + 1) (by
            have := keysGe_strict hl
            have := keysGe_drainStep_succ m c cell rem
            omega)
          show (drain (drainStep m c cell rem) (c + 1)).2.2 =
            c + (cell :: (drain (drainStep m c cell rem) (c + 1)).1).length
          simp only [List.length_cons]
          omega

theorem drain_csr (m : SpanMap) (c : Nat) :
    (drain m c).2.2 = c + (drain m c).1.length :=
  drain_csr_aux (keysGe m c) m c (Nat.le_refl _)

theorem drain_low_aux (n : Nat) : ∀ (m : SpanMap) (c : Nat), keysGe m c ≤ n →
    ∀ x, x < c → lookupS (drain m c).2.1 x = lookupS m x := by
  induction n with
  | zero =>
      intro m c hn x hx
      match hl : lookupS m c with
      | none => rw [drain_none hl]
      | some (cell, rem) =>
          have := keysGe_strict hl
          omega
  | succ n ih =>
      intro m c hn x hx
      match hl : lookupS m c with
      | none => rw [drain_none hl]
      | some (cell, rem) =>
          rw [drain_some hl]
          show lookupS (drain (drainStep m c cell rem) (c + 1)).2.1 x = lookupS m x
          rw [ih (drainStep m c cell rem) (c + 1) (by
            have := keysGe_strict hl
            have := keysGe_drainStep_succ m c cell rem
            omega) x (by omega)]
          exact lookupS_drainStep_ne m c cell rem (by omega)

theorem drain_low (m : SpanMap) (c : Nat) {x : Nat} (hx : x < c) :
    lookupS (drain m c).2.1 x = lookupS m x :=
  drain_low_aux (keysGe m c) m c (Nat.le_refl _) x hx

theorem drain_stop_aux (n : Nat) : ∀ (m : SpanMap) (c : Nat), keysGe m c ≤ n →
    lookupS (drain m c).2.1 (drain m c).2.2 = none := by
  induction n with
  | zero =>
      intro m c hn
      match hl : lookupS m c with
      | none => rw [drain_none hl]; exact hl
      | some (cell, rem) =>
          have := keysGe_strict hl
          omega
  | succ n ih =>
      intro m c hn
      match hl : lookupS m c with
      | none => rw [drain_none hl]; exact hl
      | some (cell, rem) =>
          rw [drain_some hl]
          exact ih (drainStep m c cell rem) (c + 1) (by
            have := keysGe_strict hl
            have := keysGe_drainStep_succ m c cell rem
            omega)

theorem drain_stop (m : SpanMap) (c : Nat) :
    lookupS (drain m c).2.1 (drain m c).2.2 = none :=
  drain_stop_aux (keysGe m c) m c (Nat.le_refl _)

theorem INV1_drainStep {m0 m : SpanMap} {row : List Tag} {c : Nat}
    {cell : Tag} {rem : Int}
    (hl : lookupS m c = some (cell, rem)) (hinv : INV1 m0 (row, m, c)) :
    INV1 m0 (row ++ [cell], drainStep m c cell rem, c + 1) := by
  obtain ⟨hlen, hhigh, hlow⟩ := hinv
  simp only at hlen hhigh hlow
  have hm0c : lookupS m0 c = some (cell, rem) := by
    rw [← hhigh c (Nat.le_refl c)]
    exact hl
  refine ⟨by simp [hlen], ?_, ?_⟩
  · intro x hx
    replace hx : c + 1 ≤ x := hx
    show lookupS (drainStep m c cell rem) x = lookupS m0 x
    rw [lookupS_drainStep_ne m c cell rem (by omega)]
    exact hhigh x (by omega)
  · intro x hx cell' k hk
    replace hx : x < c + 1 := hx
    show (row ++ [cell])[x]? = some cell' ∧
      lookupS (drainStep m c cell rem) x =
        if k - 1 = 0 then none else some (cell', k - 1)
    by_cases hxc : x = c
    · rw [hxc] at hk
      rw [hm0c] at hk
      cases hk
      constructor
      · rw [hxc, List.getElem?_append_right (Nat.le_of_eq hlen), hlen]
        simp
      · rw [hxc]
        exact lookupS_drainStep_self m c cell rem
    · have hx' : x < c := by omega
      obtain ⟨h1, h2⟩ := hlow x hx' cell' k hk
      constructor
      · rw [List.getElem?_append, if_pos (by omega : x < row.length)]
        exact h1
      · rw [lookupS_drainStep_ne m c cell rem hxc]
        exact h2

theorem drain_inv1_aux (n : Nat) : ∀ (m0 m : SpanMap) (row : List Tag) (c : Nat),
    keysGe m c ≤ n → INV1 m0 (row, m, c) →
    INV1 m0 (row ++ (drain m c).1, (drain m c).2.1, (drain m c).2.2) := by
  induction n with
  | zero =>
      intro m0 m row c hn hinv
      match hl : lookupS m c with
      | none => rw [drain_none hl]; simpa using hinv
      | some (cell, rem) =>
          have := keysGe_strict hl
          omega
  | succ n ih =>
      intro m0 m row c hn hinv
      match hl : lookupS m c with
      | none => rw [drain_none hl]; simpa using hinv
      | some (cell, rem) =>
          rw [drain_some hl]
          have hstep := INV1_drainStep hl hinv
          have hrec := ih m0 (drainStep m c cell rem) (row ++ [cell]) (c + 1) (by
            have := keysGe_strict hl
            have := keysGe_drainStep_succ m c cell rem
            omega) hstep
          have heq : (row ++ [cell]) ++ (drain (drainStep m c cell rem) (c + 1)).1 =
              row ++ cell :: (drain (drainStep m c cell rem) (c + 1)).1 := by
            simp
          rw [heq] at hrec
          exact hrec

theorem drain_inv1 {m0 m : SpanMap} {row : List Tag} {c : Nat}
    (hinv : INV1 m0 (row, m, c)) :
    INV1 m0 (row ++ (drain m c).1, (drain m c).2.1, (drain m c).2.2) :=
  drain_inv1_aux (keysGe m c) m0 m row c (Nat.le_refl _) hinv

theorem placeCopies_row (cell : Tag) (rs : Int) :
    ∀ (n : Nat) (row : List Tag) (m : SpanMap) (c : Nat),
    (placeCopies cell rs n (row, m, c)).1 = row ++ List.replicate n cell := by
  intro n
  induction n with
  | zero => intro row m c; simp [placeCopies]
  | succ n ih =>
      intro row m c
      rw [show placeCopies cell rs (n + 1) (row, m, c) =
        placeCopies cell rs n (row ++ [cell],
          if 1 < rs then insertS m c (cell, rs - 1) else m, c + 1) from rfl, ih]
      simp [List.replicate_succ]

theorem placeCopies_cursor (cell : Tag) (rs : Int) :
    ∀ (n : Nat) (row : List Tag) (m : SpanMap) (c : Nat),
    (placeCopies cell rs n (row, m, c)).2.2 = c + n := by
  intro n
  induction n with
  | zero => intro row m c; simp [placeCopies]
  | succ n ih =>
      intro row m c
      rw [show placeCopies cell rs (n + 1) (row, m, c) =
        placeCopies cell rs n (row ++ [cell],
          if 1 < rs then insertS m c (cell, rs - 1) else m, c + 1) from rfl, ih]
      omega

theorem placeCopies_low (cell : Tag) (rs : Int) :
    ∀ (n : Nat) (row : List Tag) (m : SpanMap) (c : Nat) (x : Nat), x < c →
    lookupS (placeCopies cell rs n (row, m, c)).2.1 x = lookupS m x := by
  intro n
  induction n with
  | zero => intro row m c x _; rfl
  | succ n ih =>
      intro row m c x hx
      rw [show placeCopies cell rs (n + 1) (row, m, c) =
        placeCopies cell rs n (row ++ [cell],
          if 1 < rs then insertS m c (cell, rs - 1) else m, c + 1) from rfl,
        ih _ _ _ x (by omega)]
      by_cases h1 : 1 < rs
      · rw [if_pos h1, lookupS_insertS, if_neg (by omega)]
      · rw [if_neg h1]

theorem INV1_place {m0 m : SpanMap} {row : List Tag} {c : Nat} {cell : Tag}
    {rs : Int} (hnone : lookupS m c = none) (hinv : INV1 m0 (row, m, c)) :
    INV1 m0 (row ++ [cell],
      if 1 < rs then insertS m c (cell, rs - 1) else m, c + 1) := by
  obtain ⟨hlen, hhigh, hlow⟩ := hinv
  simp only at hlen hhigh hlow
  have hm0 : lookupS m0 c = none := by
    rw [← hhigh c (Nat.le_refl c)]
    exact hnone
  refine ⟨by simp [hlen], ?_, ?_⟩
  · intro x hx
    replace hx : c + 1 ≤ x := hx
    show lookupS (if 1 < rs then insertS m c (cell, rs - 1) else m) x = lookupS m0 x
    have hmx : lookupS (if 1 < rs then insertS m c (cell, rs - 1) else m) x =
        lookupS m x := by
      by_cases h1 : 1 < rs
      · rw [if_pos h1, lookupS_insertS, if_neg (by omega)]
      · rw [if_neg h1]
    rw [hmx]
    exact hhigh x (by omega)
  · intro x hx cell' k hk
    replace hx : x < c + 1 := hx
    show (row ++ [cell])[x]? = some cell' ∧
      lookupS (if 1 < rs then insertS m c (cell, rs - 1) else m) x =
        if k - 1 = 0 then none else some (cell', k - 1)
    by_cases hxc : x = c
    · rw [hxc, hm0] at hk
      cases hk
    · have hx' : x < c := by omega
      obtain ⟨h1, h2⟩ := hlow x hx' cell' k hk
      constructor
      · rw [List.getElem?_append, if_pos (by omega : x < row.length)]
        exact h1
      · have hmx : lookupS (if 1 < rs then insertS m c (cell, rs - 1) else m) x =
            lookupS m x := by
          by_cases h1 : 1 < rs
          · rw [if_pos h1, lookupS_insertS, if_neg hxc]
          · rw [if_neg h1]
        rw [hmx]
        exact h2

theorem placeCells_inv1 : ∀ (cells : List Tag) (row : List Tag) (m : SpanMap)
    (c : Nat) (st : List Tag × SpanMap × Nat) (m0 : SpanMap),
    ColOne cells → INV1 m0 (row, m, c) →
    placeCells (row, m, c) cells = .ok st → INV1 m0 st := by
  intro cells
  induction cells with
  | nil =>
      intro row m c st m0 _ hinv h
      have h' : (Except.ok (row, m, c) : Except PyErr (List Tag × SpanMap × Nat)) =
          .ok st := h
      cases h'
      exact hinv
  | cons cell rest ih =>
      intro row m c st m0 hcol hinv h
      have hcs : parseSpan cell.colspanAttr = .ok 1 :=
        hcol cell (List.mem_cons_self _ _)
      match hrs : parseSpan cell.rowspanAttr with
      | .error e =>
          have he : placeCells (row, m, c) (cell :: rest) = .error e := by
            simp only [placeCells]
            rw [hrs, hcs]
          rw [he] at h
          cases h
      | .ok rs =>
          have hstep : placeCells (row, m, c) (cell :: rest) =
              placeCells (placeCopies cell rs 1
                (row ++ (drain m c).1, (drain m c).2.1, (drain m c).2.2)) rest := by
            simp only [placeCells]
            rw [hrs, hcs]
            rfl
          rw [hstep] at h
          have hpc : placeCopies cell rs 1
              (row ++ (drain m c).1, (drain m c).2.1, (drain m c).2.2) =
              ((row ++ (drain m c).1) ++ [cell],
               if 1 < rs then
                 insertS (drain m c).2.1 (drain m c).2.2 (cell, rs - 1)
               else (drain m c).2.1,
               (drain m c).2.2 + 1) := rfl
          rw [hpc] at h
          exact ih _ _ _ st m0 (fun x hx => hcol x (List.mem_cons_of_mem _ hx))
            (INV1_place (drain_stop m c) (drain_inv1 hinv)) h

theorem processRow_inv1 {m : SpanMap} {cells : List Tag} {row : List Tag}
    {m1 : SpanMap} (hcol : ColOne cells) (h : processRow m cells = .ok (row, m1)) :
    INV1 m (row, m1, row.length) := by
  have hinv0 : INV1 m (([] : List Tag), m, 0) :=
    ⟨rfl, fun _ _ => rfl, fun x hx => absurd hx (Nat.not_lt_zero x)⟩
  have hd0 := drain_inv1 hinv0
  rw [List.nil_append] at hd0
  match hpc : placeCells ((drain m 0).1, (drain m 0).2.1, (drain m 0).2.2) cells with
  | .error e =>
      have he : processRow m cells = .error e := by
        simp only [processRow]
        rw [hpc]
      rw [he] at h
      cases h
  | .ok (row1, m1x, c1) =>
      have hstep : processRow m cells =
          .ok (row1 ++ (drain m1x c1).1, (drain m1x c1).2.1) := by
        simp only [processRow]
        rw [hpc]
      rw [hstep] at h
      injection h with h
      have hr : row1 ++ (drain m1x c1).1 = row := congrArg Prod.fst h
      have hm : (drain m1x c1).2.1 = m1 := congrArg Prod.snd h
      have hinv1 := placeCells_inv1 cells (drain m 0).1 (drain m 0).2.1
        (drain m 0).2.2 _ m hcol hd0 hpc
      have hinv2 := drain_inv1 hinv1
      rw [hr, hm] at hinv2
      have hc : row.length = (drain m1x c1).2.2 := hinv2.1
      rw [show (row, m1, row.length) =
        (row, m1, (drain m1x c1).2.2) from by rw [hc]]
      exact hinv2

theorem placeCells_len : ∀ (cells : List Tag) (row : List Tag) (m : SpanMap)
    (c : Nat) (st : List Tag × SpanMap × Nat),
    placeCells (row, m, c) cells = .ok st → row.length = c →
    st.1.length = st.2.2 := by
  intro cells
  induction cells with
  | nil =>
      intro row m c st h hlen
      have h' : (Except.ok (row, m, c) : Except PyErr (List Tag × SpanMap × Nat)) =
          .ok st := h
      cases h'
      exact hlen
  | cons cell rest ih =>
      intro row m c st h hlen
      match hrs : parseSpan cell.rowspanAttr with
      | .error e =>
          match hcs : parseSpan cell.colspanAttr with
          | .ok cs =>
              have he : placeCells (row, m, c) (cell :: rest) = .error e := by
                simp only [placeCells]
                rw [hrs, hcs]
              rw [he] at h
              cases h
          | .error e2 =>
              have he : placeCells (row, m, c) (cell :: rest) = .error e := by
                simp only [placeCells]
                rw [hrs, hcs]
              rw [he] at h
              cases h
      | .ok rs =>
          match hcs : parseSpan cell.colspanAttr with
          | .error e =>
              have he : placeCells (row, m, c) (cell :: rest) = .error e := by
                simp only [placeCells]
                rw [hrs, hcs]
              rw [he] at h
              cases h
          | .ok cs =>
              have hstep : placeCells (row, m, c) (cell :: rest) =
                  placeCells (placeCopies cell rs cs.toNat
                    (row ++ (drain m c).1, (drain m c).2.1, (drain m c).2.2))
                    rest := by
                simp only [placeCells]
                rw [hrs, hcs]
              rw [hstep] at h
              set P := placeCopies cell rs cs.toNat
                (row ++ (drain m c).1, (drain m c).2.1, (drain m c).2.2) with hP
              have hlen' : P.1.length = P.2.2 := by
                rw [hP, placeCopies_row, placeCopies_cursor]
                simp only [List.length_append, List.length_replicate]
                have := drain_csr m c
                omega
              exact ih P.1 P.2.1 P.2.2 st h hlen'

theorem placeCells_low : ∀ (cells : List Tag) (row : List Tag) (m : SpanMap)
    (c : Nat) (st : List Tag × SpanMap × Nat),
    placeCells (row, m, c) cells = .ok st →
    c ≤ st.2.2 ∧ (∀ x, x < c → lookupS st.2.1 x = lookupS m x) ∧
      ∃ ext, st.1 = row ++ ext := by
  intro cells
  induction cells with
  | nil =>
      intro row m c st h
      have h' : (Except.ok (row, m, c) : Except PyErr (List Tag × SpanMap × Nat)) =
          .ok st := h
      cases h'
      exact ⟨Nat.le_refl _, fun _ _ => rfl, [], by simp⟩
  | cons cell rest ih =>
      intro row m c st h
      match hrs : parseSpan cell.rowspanAttr with
      | .error e =>
          match hcs : parseSpan cell.colspanAttr with
          | .ok cs =>
              have he : placeCells (row, m, c) (cell :: rest) = .error e := by
                simp only [placeCells]
                rw [hrs, hcs]
              rw [he] at h
              cases h
          | .error e2 =>
              have he : placeCells (row, m, c) (cell :: rest) = .error e := by
                simp only [placeCells]
                rw [hrs, hcs]
              rw [he] at h
              cases h
      | .ok rs =>
          match hcs : parseSpan cell.colspanAttr with
          | .error e =>
              have he : placeCells (row, m, c) (cell :: rest) = .error e := by
                simp only [placeCells]
                rw [hrs, hcs]
              rw [he] at h
              cases h
          | .ok cs =>
              have hstep : placeCells (row, m, c) (cell :: rest) =
                  placeCells (placeCopies cell rs cs.toNat
                    (row ++ (drain m c).1, (drain m c).2.1, (drain m c).2.2))
                    rest := by
                simp only [placeCells]
                rw [hrs, hcs]
              rw [hstep] at h
              set P := placeCopies cell rs cs.toNat
                (row ++ (drain m c).1, (drain m c).2.1, (drain m c).2.2) with hP
              obtain ⟨hcur, hlow, ext, hext⟩ := ih P.1 P.2.1 P.2.2 st h
              have hPc : P.2.2 = (drain m c).2.2 + cs.toNat := by
                rw [hP, placeCopies_cursor]
              have hdc := drain_csr m c
              refine ⟨by omega, ?_, ?_⟩
              · intro x hx
                rw [hlow x (by omega)]
                have h1 : lookupS P.2.1 x = lookupS (drain m c).2.1 x := by
                  rw [hP]
                  exact placeCopies_low cell rs cs.toNat _ _ _ x (by omega)
                rw [h1]
                exact drain_low m c (by omega)
              · refine ⟨(drain m c).1 ++ List.replicate cs.toNat cell ++ ext, ?_⟩
                rw [hext, hP, placeCopies_row]
                simp

theorem placeCells_place : ∀ (pre : List Tag) (row : List Tag) (m : SpanMap)
    (c0 : Nat) (cell : Tag) (post : List Tag) (st : List Tag × SpanMap × Nat)
    (rs cs : Int),
    parseSpan cell.rowspanAttr = .ok rs →
    parseSpan cell.colspanAttr = .ok cs →
    row.length = c0 →
    placeCells (row, m, c0) (pre ++ cell :: post) = .ok st →
    ∃ c, c + cs.toNat ≤ st.1.length ∧
      (∀ k, k < cs.toNat → st.1[c + k]? = some cell) ∧
      (cs = 1 → 1 < rs → lookupS st.2.1 c = some (cell, rs - 1)) := by
  intro pre
  induction pre with
  | nil =>
      intro row m c0 cell post st rs cs hrs hcs hlen h
      rw [List.nil_append] at h
      have hstep : placeCells (row, m, c0) (cell :: post) =
          placeCells (placeCopies cell rs cs.toNat
            (row ++ (drain m c0).1, (drain m c0).2.1, (drain m c0).2.2))
            post := by
        simp only [placeCells]
        rw [hrs, hcs]
      rw [hstep] at h
      set P := placeCopies cell rs cs.toNat
        (row ++ (drain m c0).1, (drain m c0).2.1, (drain m c0).2.2) with hP
      have hrow : P.1 = (row ++ (drain m c0).1) ++ List.replicate cs.toNat cell := by
        rw [hP, placeCopies_row]
      have hcur : P.2.2 = (drain m c0).2.2 + cs.toNat := by
        rw [hP, placeCopies_cursor]
      have hbase : (row ++ (drain m c0).1).length = (drain m c0).2.2 := by
        have := drain_csr m c0
        simp only [List.length_append]
        omega
      have hbase2 : (row ++ (drain m c0).1).length = c0 + (drain m c0).1.length := by
        simp [hlen]
      obtain ⟨hc2, hlw, ext, hext⟩ := placeCells_low post P.1 P.2.1 P.2.2 st h
      refine ⟨(drain m c0).2.2, ?_, ?_, ?_⟩
      · rw [hext, hrow]
        simp only [List.length_append, List.length_replicate]
        omega
      · intro k hk
        rw [hext, hrow]
        rw [List.getElem?_append, if_pos (by
          simp only [List.length_append, List.length_replicate]
          omega)]
        rw [List.getElem?_append_right (by omega), hbase]
        rw [show (drain m c0).2.2 + k - (drain m c0).2.2 = k from by omega]
        rw [List.getElem?_replicate, if_pos hk]
      · intro hcs1 hrs1
        subst hcs1
        have hP1 : P = ((row ++ (drain m c0).1) ++ [cell],
            insertS (drain m c0).2.1 (drain m c0).2.2 (cell, rs - 1),
            (drain m c0).2.2 + 1) := by
          rw [hP]
          show ((row ++ (drain m c0).1) ++ [cell],
            if 1 < rs then
              insertS (drain m c0).2.1 (drain m c0).2.2 (cell, rs - 1)
            else (drain m c0).2.1,
            (drain m c0).2.2 + 1) = _
          rw [if_pos hrs1]
        rw [hlw (drain m c0).2.2 (by omega), hP1, lookupS_insertS, if_pos rfl]
  | cons p pre' ih =>
      intro row m c0 cell post st rs cs hrs hcs hlen h
      rw [List.cons_append] at h
      match hrsp : parseSpan p.rowspanAttr with
      | .error e =>
          match hcsp : parseSpan p.colspanAttr with
          | .ok csp =>
              have he : placeCells (row, m, c0) (p :: (pre' ++ cell :: post)) =
                  .error e := by
                simp only [placeCells]
                rw [hrsp, hcsp]
              rw [he] at h
              cases h
          | .error e2 =>
              have he : placeCells (row, m, c0) (p :: (pre' ++ cell :: post)) =
                  .error e := by
                simp only [placeCells]
                rw [hrsp, hcsp]
              rw [he] at h
              cases h
      | .ok rsp =>
          match hcsp : parseSpan p.colspanAttr with
          | .error e =>
              have he : placeCells (row, m, c0) (p :: (pre' ++ cell :: post)) =
                  .error e := by
                simp only [placeCells]
                rw [hrsp, hcsp]
              rw [he] at h
              cases h
          | .ok csp =>
              have hstep : placeCells (row, m, c0) (p :: (pre' ++ cell :: post)) =
                  placeCells (placeCopies p rsp csp.toNat
                    (row ++ (drain m c0).1, (drain m c0).2.1, (drain m c0).2.2))
                    (pre' ++ cell :: post) := by
                simp only [placeCells]
                rw [hrsp, hcsp]
              rw [hstep] at h
              set P := placeCopies p rsp csp.toNat
                (row ++ (drain m c0).1, (drain m c0).2.1, (drain m c0).2.2) with hP
              have hlen' : P.1.length = P.2.2 := by
                rw [hP, placeCopies_row, placeCopies_cursor]
                simp only [List.length_append, List.length_replicate]
                have := drain_csr m c0
                omega
              exact ih P.1 P.2.1 P.2.2 cell post st rs cs hrs hcs hlen' h

theorem processRow_place {m : SpanMap} {pre post : List Tag} {cell : Tag}
    {row : List Tag} {m1 : SpanMap} {rs cs : Int}
    (hrs : parseSpan cell.rowspanAttr = .ok rs)
    (hcs : parseSpan cell.colspanAttr = .ok cs)
    (h : processRow m (pre ++ cell :: post) = .ok (row, m1)) :
    ∃ c, (∀ k, k < cs.toNat → row[c + k]? = some cell) ∧
      (cs = 1 → 1 < rs → lookupS m1 c = some (cell, rs - 1)) := by
  match hpc : placeCells ((drain m 0).1, (drain m 0).2.1, (drain m 0).2.2)
      (pre ++ cell :: post) with
  | .error e =>
      have he : processRow m (pre ++ cell :: post) = .error e := by
        simp only [processRow]
        rw [hpc]
      rw [he] at h
      cases h
  | .ok (row1, m1x, c1) =>
      have hstep : processRow m (pre ++ cell :: post) =
          .ok (row1 ++ (drain m1x c1).1, (drain m1x c1).2.1) := by
        simp only [processRow]
        rw [hpc]
      rw [hstep] at h
      injection h with h
      have hr : row1 ++ (drain m1x c1).1 = row := congrArg Prod.fst h
      have hm : (drain m1x c1).2.1 = m1 := congrArg Prod.snd h
      have hlen0 : (drain m 0).1.length = (drain m 0).2.2 := by
        have := drain_csr m 0
        omega
      obtain ⟨c, hlenb, hhor, hreg⟩ := placeCells_place pre (drain m 0).1
        (drain m 0).2.1 (drain m 0).2.2 cell post (row1, m1x, c1) rs cs hrs hcs
        hlen0 hpc
      replace hlenb : c + cs.toNat ≤ row1.length := hlenb
      refine ⟨c, ?_, ?_⟩
      · intro k hk
        have hb : c + k < row1.length := by omega
        rw [← hr, List.getElem?_append, if_pos hb]
        exact hhor k hk
      · intro hc1 hrs1
        replace hreg : lookupS m1x c = some (cell, rs - 1) := hreg hc1 hrs1
        have hl1 : row1.length = c1 := placeCells_len (pre ++ cell :: post)
          (drain m 0).1 (drain m 0).2.1 (drain m 0).2.2 (row1, m1x, c1) hpc hlen0
        have hck : c < c1 := by
          subst hc1
          omega
        rw [← hm, drain_low m1x c1 hck]
        exact hreg

theorem expandFrom_len : ∀ (rows : List (List Tag)) (m : SpanMap)
    (g : List (List Tag)) (mf : SpanMap),
    expandFrom m rows = .ok (g, mf) → g.length = rows.length := by
  intro rows
  induction rows with
  | nil =>
      intro m g mf h
      have h' : (Except.ok (([] : List (List Tag)), m) :
          Except PyErr (List (List Tag) × SpanMap)) = .ok (g, mf) := h
      cases h'
      rfl
  | cons r rest ih =>
      intro m g mf h
      match hp : processRow m r with
      | .error e =>
          have he : expandFrom m (r :: rest) = .error e := by
            simp only [expandFrom, hp]
          rw [he] at h
          cases h
      | .ok (rowe, m1) =>
          match he2 : expandFrom m1 rest with
          | .error e =>
              have he : expandFrom m (r :: rest) = .error e := by
                simp only [expandFrom, hp, he2]
              rw [he] at h
              cases h
          | .ok (g2, mf2) =>
              have he : expandFrom m (r :: rest) = .ok (rowe :: g2, mf2) := by
                simp only [expandFrom, hp, he2]
              rw [he] at h
              injection h with h
              have hg : rowe :: g2 = g := congrArg Prod.fst h
              rw [← hg]
              simp [ih m1 g2 mf2 he2]

theorem expandFrom_split : ∀ (rows : List (List Tag)) (m : SpanMap)
    (g : List (List Tag)) (mf : SpanMap) (r : Nat),
    expandFrom m rows = .ok (g, mf) → r < rows.length →
    ∃ mr mr1, processRow mr (rows.getD r []) = .ok (g.getD r [], mr1) ∧
      expandFrom mr1 (rows.drop (r + 1)) = .ok (g.drop (r + 1), mf) := by
  intro rows
  induction rows with
  | nil => intro m g mf r h hr; exact absurd hr (by simp)
  | cons row0 rest ih =>
      intro m g mf r h hr
      match hp : processRow m row0 with
      | .error e =>
          have he : expandFrom m (row0 :: rest) = .error e := by
            simp only [expandFrom, hp]
          rw [he] at h
          cases h
      | .ok (rowe, m1) =>
          match he2 : expandFrom m1 rest with
          | .error e =>
              have he : expandFrom m (row0 :: rest) = .error e := by
                simp only [expandFrom, hp, he2]
              rw [he] at h
              cases h
          | .ok (g2, mf2) =>
              have he : expandFrom m (row0 :: rest) = .ok (rowe :: g2, mf2) := by
                simp only [expandFrom, hp, he2]
              rw [he] at h
              injection h with h
              have hg : rowe :: g2 = g := congrArg Prod.fst h
              have hmf : mf2 = mf := congrArg Prod.snd h
              subst hmf
              rw [← hg]
              cases r with
              | zero => exact ⟨m, m1, hp, he2⟩
              | succ r =>
                  have hr' : r < rest.length := by simpa using hr
                  obtain ⟨mr, mr1, h1, h2⟩ := ih m1 g2 mf2 r he2 hr'
                  exact ⟨mr, mr1, h1, h2⟩

theorem expandFrom_vert : ∀ (rows : List (List Tag)) (m : SpanMap)
    (g : List (List Tag)) (mf : SpanMap) (cell : Tag) (K : Int) (c i : Nat),
    (∀ r ∈ rows, ColOne r) → lookupS m c = some (cell, K) →
    expandFrom m rows = .ok (g, mf) → i < g.length → (i : Int) < K →
    (∀ j, j ≤ i → c < (g.getD j []).length) →
    (g.getD i [])[c]? = some cell := by
  intro rows
  induction rows with
  | nil =>
      intro m g mf cell K c i _ _ h hi _ _
      have h' : (Except.ok (([] : List (List Tag)), m) :
          Except PyErr (List (List Tag) × SpanMap)) = .ok (g, mf) := h
      cases h'
      exact absurd hi (by simp)
  | cons row0 rest ih =>
      intro m g mf cell K c i hcol hl h hi hK hw
      match hp : processRow m row0 with
      | .error e =>
          have he : expandFrom m (row0 :: rest) = .error e := by
            simp only [expandFrom, hp]
          rw [he] at h
          cases h
      | .ok (rowe, m1) =>
          match he2 : expandFrom m1 rest with
          | .error e =>
              have he : expandFrom m (row0 :: rest) = .error e := by
                simp only [expandFrom, hp, he2]
              rw [he] at h
              cases h
          | .ok (g2, mf2) =>
              have he : expandFrom m (row0 :: rest) = .ok (rowe :: g2, mf2) := by
                simp only [expandFrom, hp, he2]
              rw [he] at h
              injection h with h
              have hg : rowe :: g2 = g := congrArg Prod.fst h
              have hinv := processRow_inv1 (hcol row0 (List.mem_cons_self _ _)) hp
              have hw0 : c < rowe.length := by
                have hx := hw 0 (Nat.zero_le i)
                rw [← hg] at hx
                exact hx
              obtain ⟨h1, h2⟩ := hinv.2.2 c hw0 cell K hl
              replace h1 : rowe[c]? = some cell := h1
              replace h2 : lookupS m1 c =
                  if K - 1 = 0 then none else some (cell, K - 1) := h2
              cases i with
              | zero =>
                  rw [← hg]
                  exact h1
              | succ i =>
                  have hKc : ((i : Int) + 1) < K := by
                    have hx : ((i + 1 : Nat) : Int) < K := hK
                    push_cast at hx
                    exact hx
                  rw [if_neg (by omega : ¬(K - 1 = 0))] at h2
                  have hres := ih m1 g2 mf2 cell (K - 1) c i
                    (fun r hr => hcol r (List.mem_cons_of_mem _ hr))
                    h2 he2
                    (by rw [← hg] at hi; simpa using hi)
                    (by omega)
                    (fun j hj => by
                      have hx := hw (j + 1) (by omega)
                      rw [← hg] at hx
                      exact hx)
                  rw [← hg]
                  exact hres

/-- C2 (corrected). For a source cell declaring row-span `rs` and
column-span `cs` found in row `r` of the input table, the expanded grid
always duplicates the cell horizontally: there is a column `c` such that
row `r` of the grid holds the cell at columns `c .. c + cs.toNat - 1`.
The vertical duplication of the claim holds under the conditions that
every cell of the table spans a single column and that each row strictly
between `r` and the target row extends past column `c`: then every grid
row `i` with `r < i < r + rs` (and `i` within the grid) holds the cell
at column `c`.  The unconditional form of the claim is refuted by
`c2_counterexample`: a row-span reaching past the last row places no
cell below, and a multi-column cell can skip over a pending span. -/
theorem c2_span_coverage (t g : List (List Tag)) (r : Nat)
    (pre post : List Tag) (cell : Tag) (rs cs : Int)
    (hr : r < t.length) (hrow : t.getD r [] = pre ++ cell :: post)
    (hg : expandTable t = .ok g)
    (hrs : parseSpan cell.rowspanAttr = .ok rs)
    (hcs : parseSpan cell.colspanAttr = .ok cs) :
    ∃ c : Nat,
      (∀ k, k < cs.toNat → (g.getD r [])[c + k]? = some cell) ∧
      ((∀ row ∈ t, ColOne row) → ∀ i, r < i → i < g.length →
        (i : Int) < (r : Int) + rs →
        (∀ j, r < j → j ≤ i → c < (g.getD j []).length) →
        (g.getD i [])[c]? = some cell) := by
  match hf : expandFrom [] t with
  | .error e =>
      have he : expandTable t = .error e := by
        simp only [expandTable, hf]
      rw [he] at hg
      cases hg
  | .ok (g0, mf) =>
      have hgg : expandTable t = .ok g0 := by
        simp only [expandTable, hf]
      rw [hgg] at hg
      injection hg with hg
      rw [hg] at hf
      obtain ⟨mr, mr1, hpr, hrest⟩ := expandFrom_split t [] g mf r hf hr
      rw [hrow] at hpr
      obtain ⟨c, hhor, hreg⟩ := processRow_place hrs hcs hpr
      refine ⟨c, hhor, ?_⟩
      intro hcol i hri hig hirs hwid
      have hmem : cell ∈ t.getD r [] := by
        rw [hrow]
        exact List.mem_append_right _ (List.mem_cons_self _ _)
      have hmemt : t.getD r [] ∈ t := by
        rw [List.getD_eq_getElem t [] hr]
        exact List.getElem_mem hr
      have hcs1' : parseSpan cell.colspanAttr = .ok 1 := hcol _ hmemt cell hmem
      have hcs1 : cs = 1 := by
        rw [hcs] at hcs1'
        exact Except.ok.inj hcs1' 
      have hcast : (r : Int) < (i : Int) := by exact_mod_cast hri
      have hrs1 : 1 < rs := by omega
      replace hreg := hreg hcs1 hrs1
      have hcol2 : ∀ row ∈ t.drop (r + 1), ColOne row :=
        fun row hrow2 => hcol row (List.mem_of_mem_drop hrow2)
      have hidx : i - (r + 1) < (g.drop (r + 1)).length := by
        rw [List.length_drop]
        omega
      have hKi : ((i - (r + 1) : Nat) : Int) < rs - 1 := by omega
      have hwid2 : ∀ j, j ≤ i - (r + 1) →
          c < ((g.drop (r + 1)).getD j []).length := by
        intro j hj
        have hdg : (g.drop (r + 1)).getD j [] = g.getD (r + 1 + j) [] := by
          rw [List.getD_eq_getElem?_getD, List.getD_eq_getElem?_getD,
            List.getElem?_drop]
        rw [hdg]
        exact hwid (r + 1 + j) (by omega) (by omega)
      have hres := expandFrom_vert (t.drop (r + 1)) mr1 (g.drop (r + 1)) mf cell
        (rs - 1) c (i - (r + 1)) hcol2 hreg hrest hidx hKi hwid2
      have hdg : (g.drop (r + 1)).getD (i - (r + 1)) [] = g.getD i [] := by
        rw [List.getD_eq_getElem?_getD, List.getD_eq_getElem?_getD,
          List.getElem?_drop, show r + 1 + (i - (r + 1)) = i from by omega]
      rw [hdg] at hres
      exact hres

theorem c2_span_coverage_witness :
    ∃ c : Nat,
      (∀ k, k < (1 : Int).toNat →
        (([[cellRowTwo], [cellRowTwo, mkText "z"]] :
          List (List Tag)).getD 0 [])[c + k]? = some cellRowTwo) ∧
      ((∀ row ∈ ([[cellRowTwo], [mkText "z"]] : List (List Tag)), ColOne row) →
        ∀ i, 0 < i →
        i < ([[cellRowTwo], [cellRowTwo, mkText "z"]] : List (List Tag)).length →
        (i : Int) < ((0 : Nat) : Int) + 2 →
        (∀ j, 0 < j → j ≤ i →
          c < (([[cellRowTwo], [cellRowTwo, mkText "z"]] :
            List (List Tag)).getD j []).length) →
        (([[cellRowTwo], [cellRowTwo, mkText "z"]] :
          List (List Tag)).getD i [])[c]? = some cellRowTwo) :=
  c2_span_coverage [[cellRowTwo], [mkText "z"]]
    [[cellRowTwo], [cellRowTwo, mkText "z"]] 0 [] [] cellRowTwo 2 1
    (by decide) rfl (by decide) (by decide) (by decide)

end Edu
